import Mathlib

/-! Verification of simple-mc: the particle queue, the bank synchronisation, the
Shannon entropy and the batch loop.

A shallow embedding of the queue code of `src/initialize.c`, of `synchronize_bank`
and `shannon_entropy` of `src/eigenvalue.c`, and of the batch loop of `src/main.c`.

Conventions of the embedding.

* `unsigned long` counters are natural numbers.  Every counter is bounded by the
  number of particles held in memory, so no operation on them wraps.  The grid index
  and the cell count are also given as the machine computes them, modulo `2^64`
  (`flat_index64`, `cell_count64`); they agree with the exact values for grids of
  fewer than `2^64` cells (`flat_index64_eq`).  The
  `int` counters of the batch loop are integers; they stay between `-1` and
  `n_batches`.
* The `double` operations are parameters of the model (`FloatOps`).
* An array of `Particle` is a list of cells.  A queue cell is `Option α`: `none`
  is a cell that was allocated (`malloc`, `realloc`) and never written, whose
  content is indeterminate in C.
* `memcpy` copies cell by cell.  A copy whose source or destination index lies
  outside the allocation is undefined behaviour in C; the model skips that cell.
* `realloc` is assumed to succeed (its failure is fatal in the source).
-/

namespace SimpleMC

/-! ## Memory primitives -/

/-- Model of `memcpy(&dst[d], &src[s], len * sizeof(Particle))`: cell `d + k` of the
destination receives cell `s + k` of the source, for `k < len`.  The source is read
from its state before the copy (the regions the code copies never overlap). -/
def memcpy {β : Type} (dst : List β) (d : Nat) (src : List β) (s : Nat) : Nat → List β
  | 0 => dst
  | k + 1 =>
    match src[s + k]? with
    | some v => (memcpy dst d src s k).set (d + k) v
    | none => memcpy dst d src s k

/-- Model of `realloc(p, m * sizeof(Particle))`: the first cells are kept, the new
ones are indeterminate. -/
def realloc {α : Type} (p : List (Option α)) (m : Nat) : List (Option α) :=
  p.take m ++ List.replicate (m - p.length) none

/-! ## Queue (`src/initialize.c`) -/

/-- The `Queue` record: the array `p`, its capacity `sz`, the index `head` of the
oldest element and the number `n` of live elements.  (The function pointers `resize`,
`enqueue` and `dequeue` of the C record always hold the functions below.) -/
structure Queue (α : Type) where
  p : List (Option α)
  sz : Nat
  head : Nat
  n : Nat
deriving DecidableEq, Repr

/-- The fatal errors the queue code reports through `print_error`. -/
inductive QueueError where
  | emptyQueue
deriving DecidableEq, Repr

/-- Model of `init_queue(n_particles)`: an array of `n_particles` cells, none of them
written yet, with `head = 0` and `n = 0`. -/
def init_queue {α : Type} (n_particles : Nat) : Queue α :=
  { p := List.replicate n_particles none, sz := n_particles, head := 0, n := 0 }

/-- Model of `resize_queue(q)`: the array is reallocated to `2*sz` cells, `sz` is doubled, and
`head` cells are copied from index `0` to index `head + n`.  Where `head + n + head`
exceeds `2*sz` the C copy writes past the end of the block (undefined behaviour); this
definition leaves those cells out, and `enqueue_checked` marks the call as undefined. -/
def resize_queue {α : Type} (q : Queue α) : Queue α :=
  let p1 := realloc q.p (2 * q.sz)
  { q with p := memcpy p1 (q.head + q.n) p1 0 q.head, sz := 2 * q.sz }

/-- Model of `enqueue(q, p)`: resize when `sz == n+1`, then store at `(head+n) % sz` and
increment `n`.  (With `sz = 0` the C code computes a remainder by zero; every
statement below is for `sz ≥ 1`.) -/
def enqueue {α : Type} (q : Queue α) (x : α) : Queue α :=
  let q1 := if q.sz = q.n + 1 then resize_queue q else q
  { q1 with p := q1.p.set ((q1.head + q1.n) % q1.sz) (some x), n := q1.n + 1 }

/-- Modelled from the spec: `print_error`, which the queue code calls and whose source
is not at hand.  The specification classes the empty-queue underflow as fatal: the
run ends there with the diagnostic, and the caller does not continue. -/
def print_error {β : Type} (e : QueueError) : Except QueueError β :=
  .error e

/-- Model of `dequeue(q, p)`: the result written to `*p` (or the fatal error) together
with the queue as the call leaves it.  On an empty queue the call ends in
`print_error`, before any field of the queue is touched. -/
def dequeue {α : Type} (q : Queue α) : Except QueueError (Option α) × Queue α :=
  if q.n = 0 then (print_error .emptyQueue, q)
  else (.ok (q.p.getD q.head none), { q with n := q.n - 1, head := (q.head + 1) % q.sz })

/-- An operation of a queue client. -/
inductive Op (α : Type) where
  | enq (x : α)
  | deq
deriving DecidableEq, Repr

/-- Runs a sequence of operations; the result is the list of dequeued cells, in
order, and the final queue, or the error of the first failing dequeue. -/
def run {α : Type} : Queue α → List (Op α) → Except QueueError (List (Option α) × Queue α)
  | q, [] => .ok ([], q)
  | q, Op.enq x :: ops => run (enqueue q x) ops
  | q, Op.deq :: ops =>
    match dequeue q with
    | (.error e, _) => .error e
    | (.ok c, q1) =>
      match run q1 ops with
      | .error e => .error e
      | .ok (out, q2) => .ok (c :: out, q2)

/-- The particles enqueued by a sequence of operations, in order. -/
def enqueued {α : Type} : List (Op α) → List α
  | [] => []
  | Op.enq x :: ops => x :: enqueued ops
  | Op.deq :: ops => enqueued ops

/-- The number of dequeues of a sequence of operations. -/
def dequeues {α : Type} : List (Op α) → Nat
  | [] => 0
  | Op.enq _ :: ops => dequeues ops
  | Op.deq :: ops => dequeues ops + 1

/-- Enqueues the particles of a list, in order. -/
def enqueueAll {α : Type} (q : Queue α) (xs : List α) : Queue α :=
  xs.foldl enqueue q

/-- Dequeues `k` times; the dequeued cells in order, or the first error. -/
def dequeueN {α : Type} : Queue α → Nat → Except QueueError (List (Option α) × Queue α)
  | q, 0 => .ok ([], q)
  | q, k + 1 =>
    match dequeue q with
    | (.error e, _) => .error e
    | (.ok c, q1) =>
      match dequeueN q1 k with
      | .error e => .error e
      | .ok (out, q2) => .ok (c :: out, q2)

/-- The queue states a client can reach from `init_queue c` with `enqueue` and with
`dequeue` on a non-empty queue. -/
inductive Reachable {α : Type} (c : Nat) : Queue α → Prop where
  | init : Reachable c (init_queue c)
  | enq (q : Queue α) (x : α) : Reachable c q → Reachable c (enqueue q x)
  | deq (q : Queue α) : Reachable c q → q.n ≠ 0 → Reachable c (dequeue q).2

/-- The state reached from `init_queue 4` by two enqueues, two dequeues and three
more enqueues: the live region is at indices 2, 3, 0. -/
def wrappedState : Queue Nat :=
  enqueue (enqueue (enqueue (dequeue (dequeue
    (enqueue (enqueue (init_queue 4) 1) 2)).2).2 3) 4) 5

/-- The sequence of operations of the failing run: the head is moved to index 2, the
live region then wraps, and the fourth enqueue of the second group grows the queue. -/
def wrapOps : List (Op Nat) :=
  [.enq 1, .enq 2, .deq, .deq, .enq 3, .enq 4, .enq 5, .enq 6, .deq, .deq, .deq, .deq]

/-! ## Banks and `synchronize_bank` (`src/eigenvalue.c`) -/

/-- The `Bank` record: the array `p`, its capacity `sz` and the number `n` of
particles it holds. -/
structure Bank (α : Type) where
  p : List α
  sz : Nat
  n : Nat
deriving DecidableEq, Repr

/-- The replacement loop of `synchronize_bank`,
`for(i=n_s; i<n_f; i++){ j = rand() % (i+1); if(j<n_s) source[j] = fission[i]; }`,
as a recursion on the number `cnt = n_f - i` of iterations left.  `rand` is the C
library generator: it returns a draw and the next state of the generator. -/
def reservoir_loop {α W : Type} (rand : W → Nat × W) (fp : List α) (n_s : Nat) :
    Nat → Nat → List α → W → List α × W
  | 0, _, sp, w => (sp, w)
  | cnt + 1, i, sp, w =>
    let j := (rand w).1 % (i + 1)
    reservoir_loop rand fp n_s cnt (i + 1)
      (if j < n_s then memcpy sp j fp i 1 else sp) (rand w).2

/-- The sampling loop of `synchronize_bank`,
`for(i=0; i<(n_s-n_f); i++) sample_source_particle(&(source[i]), g);`,
as a recursion on the number of iterations left.  `sample` is the external source
sampler: from the geometry and the state of its generator it gives the particle it
writes and the next state. -/
def sample_loop {α G W : Type} (sample : G → W → α × W) (g : G) :
    Nat → Nat → List α → W → List α × W
  | 0, _, sp, w => (sp, w)
  | cnt + 1, i, sp, w =>
    sample_loop sample g cnt (i + 1) (sp.set i (sample g w).1) (sample g w).2

/-- Model of `synchronize_bank(source_bank, fission_bank, g)`: the source bank, the
fission bank and the generator state it leaves.  The C library generator `rand` and
the source sampler `sample_source_particle` are parameters; `w` is the state of the
generators. -/
def synchronize_bank {α G W : Type} (rand : W → Nat × W) (sample : G → W → α × W)
    (source_bank fission_bank : Bank α) (g : G) (w : W) : Bank α × Bank α × W :=
  let n_s := source_bank.n
  let n_f := fission_bank.n
  if n_f ≥ n_s then
    let r := reservoir_loop rand fission_bank.p n_s (n_f - n_s) n_s
      (memcpy source_bank.p 0 fission_bank.p 0 n_s) w
    ({ source_bank with p := r.1 }, { fission_bank with n := 0 }, r.2)
  else
    let r := sample_loop sample g (n_s - n_f) 0 source_bank.p w
    ({ source_bank with p := memcpy r.1 (n_s - n_f) fission_bank.p 0 n_f },
      { fission_bank with n := 0 }, r.2)

/-- The first `k` particles the source sampler produces from state `w`. -/
def samples {α G W : Type} (sample : G → W → α × W) (g : G) : Nat → W → List α
  | 0, _ => []
  | k + 1, w => (sample g w).1 :: samples sample g k (sample g w).2

/-! ### Explicit draw sequences -/

/-- A generator whose state is the list of the draws still to come (`0` once the
list is exhausted). -/
def nextDraw : List Nat → Nat × List Nat
  | [] => (0, [])
  | v :: vs => (v, vs)

/-- All draw sequences for the replacement loop started at index `n_s` and run for
`len` iterations: the draw of the iteration at index `i` ranges over `0, ..., i`. -/
def drawSeqs (n_s : Nat) : Nat → List (List Nat)
  | 0 => [[]]
  | len + 1 =>
    (drawSeqs n_s len).flatMap fun js => (List.range (n_s + len + 1)).map fun v => js ++ [v]

/-- A fission bank of capacity `N` holding `m` particles, the particle at index `k`
being labelled `k`. -/
def labelledBank (N m : Nat) : Bank Nat :=
  { p := List.range N, sz := N, n := m }

/-- The number of draw sequences after which the fission particle of index `k` is in
the new source bank, when the fission bank `labelledBank N m` is synchronised into
`source_bank`. -/
def selectedCount {G : Type} (sample : G → List Nat → Nat × List Nat)
    (source_bank : Bank Nat) (g : G) (N m k : Nat) : Nat :=
  ((drawSeqs source_bank.n (m - source_bank.n)).filter fun js =>
    decide (k ∈ ((synchronize_bank nextDraw sample source_bank (labelledBank N m) g js).1.p.take
      source_bank.n))).length

/-! ## Shannon entropy (`src/eigenvalue.c`) -/

/-- The arithmetic of `double` that `shannon_entropy` uses, taken as parameters:
the constant `0.0`, subtraction, multiplication, division, `log2`, the conversion
`ofNat` from `unsigned long` to `double` and the conversion `toNat` from `double` to
`unsigned long`.  Nothing is assumed of them except where a statement says so. -/
structure FloatOps (K : Type) where
  zero : K
  sub : K → K → K
  mul : K → K → K
  div : K → K → K
  log2 : K → K
  ofNat : Nat → K
  toNat : K → Nat

/-- The fields of the `Particle` record that `shannon_entropy` reads: the position.
(The declaration of the record is not part of the sources at hand.) -/
structure Particle (K : Type) where
  x : K
  y : K
  z : K
deriving DecidableEq, Repr

/-- The fields of the `Geometry` record that `shannon_entropy` reads: the extents. -/
structure Geometry (K : Type) where
  x : K
  y : K
  z : K
deriving DecidableEq, Repr

/-- The fields of the `Parameters` record that the modelled code reads.  `TRUE` and
`FALSE` are the integers 1 and 0 of `global.h`. -/
structure Parameters where
  n_batches : Int
  n_active : Int
  tally : Int
  n_bins : Nat
deriving DecidableEq, Repr

/-- The flattened index `ix*n*n + iy*n + iz` of a grid cell. -/
def flat_index (n ix iy iz : Nat) : Nat :=
  ix * n * n + iy * n + iz

/-- The flattened index as the machine computes it, every product and sum reduced
modulo `2^64`. -/
def flat_index64 (n ix iy iz : Nat) : Nat :=
  (((ix * n % 2 ^ 64) * n % 2 ^ 64 + iy * n % 2 ^ 64) % 2 ^ 64 + iz) % 2 ^ 64

/-- Model of `count[i]++` on the occupancy array.  (An index outside the array is
undefined behaviour in C; the model leaves the array as it is.) -/
def incr (count : List Nat) (i : Nat) : List Nat :=
  count.set i (count.getD i 0 + 1)

/-- The three cell indices `ix = p->x/dx`, `iy = p->y/dy`, `iz = p->z/dz` of a
particle, for `dx = g->x/n`, `dy = g->y/n`, `dz = g->z/n`. -/
def cell_of {K : Type} (F : FloatOps K) (g : Geometry K) (n : Nat) (q : Particle K) :
    Nat × Nat × Nat :=
  let dx := F.div g.x (F.ofNat n)
  let dy := F.div g.y (F.ofNat n)
  let dz := F.div g.z (F.ofNat n)
  (F.toNat (F.div q.x dx), F.toNat (F.div q.y dy), F.toNat (F.div q.z dz))

/-- The flattened cell index of a particle, the index of its `count[...]++`. -/
def cell_index {K : Type} (F : FloatOps K) (g : Geometry K) (n : Nat) (q : Particle K) : Nat :=
  flat_index n (cell_of F g n q).1 (cell_of F g n q).2.1 (cell_of F g n q).2.2

/-- The binning loop of `shannon_entropy`: from `calloc(n*n*n, ...)`, one `count[...]++`
for each of the first `b->n` particles of the bank.  (The `printf` of the loop has no
effect on the result and is left out.) -/
def bin_counts {K : Type} (F : FloatOps K) (g : Geometry K) (b : Bank (Particle K))
    (n : Nat) : List Nat :=
  (b.p.take b.n).foldl (fun count q => incr count (cell_index F g n q))
    (List.replicate (n * n * n) 0)

/-- The summation loop of `shannon_entropy`, over the cells of the occupancy array:
`if(count[i] > 0) H -= ((double)count[i]/N) * log2((double)count[i]/N)`, from
`H = 0.0`. -/
def entropy_sum {K : Type} (F : FloatOps K) (count : List Nat) (N : Nat) : K :=
  count.foldl (fun H c =>
    if c > 0 then
      F.sub H (F.mul (F.div (F.ofNat c) (F.ofNat N)) (F.log2 (F.div (F.ofNat c) (F.ofNat N))))
    else H) F.zero

/-- Model of `shannon_entropy(g, b, params)`. -/
def shannon_entropy {K : Type} (F : FloatOps K) (g : Geometry K) (b : Bank (Particle K))
    (params : Parameters) : K :=
  entropy_sum F (bin_counts F g b params.n_bins) b.n

/-- The integer part of the binary logarithm, by halving (`fuel` bounds the number
of halvings). -/
def floor_log2 : Nat → Nat → Nat
  | 0, _ => 0
  | fuel + 1, x => if x ≤ 1 then 0 else floor_log2 fuel (x / 2) + 1

/-- An integer arithmetic standing in for `double` in the evaluated instances:
truncating division, and the integer part of the binary logarithm. -/
def intOps : FloatOps Int :=
  { zero := 0
    sub := fun a b => a - b
    mul := fun a b => a * b
    div := fun a b => a / b
    log2 := fun a => (floor_log2 a.toNat a.toNat : Int)
    ofNat := fun c => (c : Int)
    toNat := fun a => a.toNat }

/-! ## The batch loop of `main` (`src/main.c`) -/

/-- The constant `TRUE` of `global.h`. -/
def TRUE : Int := 1

/-- The constant `FALSE` of `global.h`. -/
def FALSE : Int := 0

/-- The state of the batch loop of `main` that the claims are about: the index `i_a`
over active batches, the flag `t->tallies_on`, the array `keff`, and, as a record of
the run, the list `writes` of the stores `keff[i_a] = keff_batch` done so far, each as
the pair of the batch index `i_b` and the entry index `i_a`. -/
structure Driver (K : Type) where
  i_a : Int
  tallies_on : Int
  keff : List K
  writes : List (Int × Int)
deriving DecidableEq, Repr

/-- The state before the first batch: `i_a = -1`, `tallies_on = FALSE` (set by
`init_tally`), `keff = calloc(n_active, ...)`. -/
def init_driver {K : Type} (F : FloatOps K) (params : Parameters) : Driver K :=
  { i_a := -1, tallies_on := FALSE, keff := List.replicate params.n_active.toNat F.zero,
    writes := [] }

/-- One iteration of the batch loop, for the batch index `i_b`.  The generation loop
(transport, `synchronize_bank`, `shannon_entropy`) is outside the model; `keff_batch`
is the value it leaves, after the division by `n_generations`.  The external calls are
taken not to write `tallies_on`. -/
def batch {K : Type} (params : Parameters) (keff_batch : K) (i_b : Int) (s : Driver K) :
    Driver K :=
  let s1 : Driver K :=
    if i_b ≥ params.n_batches - params.n_active then
      { s with i_a := s.i_a + 1,
               tallies_on := if params.tally = TRUE then TRUE else s.tallies_on }
    else s
  if s1.i_a ≥ 0 then
    { s1 with keff := s1.keff.set s1.i_a.toNat keff_batch,
              writes := s1.writes ++ [(i_b, s1.i_a)] }
  else s1

/-- The state after the first `k` iterations of `for(i_b=0; i_b<n_batches; i_b++)`;
`kb i_b` is the `keff_batch` of batch `i_b`. -/
def run_batches {K : Type} (F : FloatOps K) (params : Parameters) (kb : Int → K) :
    Nat → Driver K
  | 0 => init_driver F params
  | k + 1 => batch params (kb k) k (run_batches F params kb k)

/-- The state in which the batch loop ends. -/
def main_loop {K : Type} (F : FloatOps K) (params : Parameters) (kb : Int → K) : Driver K :=
  run_batches F params kb params.n_batches.toNat

/-- The state reached from `init_queue 4` by three enqueues, three dequeues and three
more enqueues: `head = 3`, `n = 3`, `sz = 4`, so that the next enqueue grows the queue. -/
def overrunState : Queue Nat :=
  enqueue (enqueue (enqueue (dequeue (dequeue (dequeue
    (enqueue (enqueue (enqueue (init_queue 4) 1) 2) 3)).2).2).2 4) 5) 6

/-! ## Undefined behaviour of `enqueue`, machine grid index, `calculate_keff` -/

/-- Model of `enqueue(q, p)` with the undefined behaviour of the C code made explicit.
When the call grows the queue (`sz == n+1`), `resize_queue` reallocates the block to
`2*sz` cells and copies the `head` cells `0 .. head-1` to the cells
`head+n .. head+n+head-1`.  The result is `none` when that copy leaves the block, that
is when `head + n + head > 2*sz`: the C call then writes past the end of the heap
block and has no defined result.  Otherwise it is the result of `enqueue`. -/
def enqueue_checked {α : Type} (q : Queue α) (x : α) : Option (Queue α) :=
  if q.sz = q.n + 1 ∧ 2 * q.sz < q.head + q.n + q.head then none else some (enqueue q x)

/-- The cell count `n*n*n` as the machine computes it in `unsigned long` (64 bits),
the argument of `calloc` and the bound of the summation loop of `shannon_entropy`. -/
def cell_count64 (n : Nat) : Nat :=
  (n * n % 2 ^ 64) * n % 2 ^ 64

theorem memcpy_length {β : Type} (dst : List β) (d : Nat) (src : List β) (s len : Nat) :
    (memcpy dst d src s len).length = dst.length := by
  induction len with
  | zero => rfl
  | succ k ih =>
    simp only [memcpy]
    split <;> simp [ih]

theorem memcpy_getElem? {β : Type} (dst : List β) (d : Nat) (src : List β) (s len i : Nat) :
    (memcpy dst d src s len)[i]? =
      if d ≤ i ∧ i < d + len ∧ i < dst.length ∧ s + (i - d) < src.length
      then src[s + (i - d)]? else dst[i]? := by
  induction len with
  | zero =>
    simp only [memcpy]
    rw [if_neg (by omega)]
  | succ k ih =>
    simp only [memcpy]
    split
    · rename_i v hv
      have hlt : s + k < src.length := by
        by_contra h
        rw [List.getElem?_eq_none (by omega)] at hv
        cases hv
      rw [List.getElem?_set]
      by_cases hi : d + k = i
      · subst hi
        simp only [if_true, memcpy_length]
        by_cases hl : d + k < dst.length
        · simp [hl, hlt, hv]
        · simp [hl]
          omega
      · simp only [hi, if_false, ih]
        by_cases h1 : d ≤ i ∧ i < d + k ∧ i < dst.length ∧ s + (i - d) < src.length
        · rw [if_pos h1, if_pos (by omega)]
        · rw [if_neg h1, if_neg (by omega)]
    · rename_i hv
      have hge : src.length ≤ s + k := by
        by_contra h
        rw [List.getElem?_eq_getElem (by omega)] at hv
        cases hv
      rw [ih]
      by_cases h1 : d ≤ i ∧ i < d + k ∧ i < dst.length ∧ s + (i - d) < src.length
      · rw [if_pos h1, if_pos (by omega)]
      · rw [if_neg h1]
        by_cases h2 : d ≤ i ∧ i < d + (k + 1) ∧ i < dst.length ∧ s + (i - d) < src.length
        · exfalso
          have : i - d = k := by omega
          omega
        · rw [if_neg h2]
theorem realloc_length {α : Type} (p : List (Option α)) (m : Nat) :
    (realloc p m).length = m := by
  simp only [realloc, List.length_append, List.length_take, List.length_replicate]
  omega

theorem realloc_of_le {α : Type} (p : List (Option α)) (m : Nat) (h : p.length ≤ m) :
    realloc p m = p ++ List.replicate (m - p.length) none := by
  simp only [realloc, List.take_of_length_le h]

theorem take_succ_set {β : Type} (l : List β) (n : Nat) (a : β) (h : n < l.length) :
    (l.set n a).take (n + 1) = l.take n ++ [a] := by
  apply List.ext_getElem?
  intro i
  by_cases h1 : i < n
  · rw [List.getElem?_take_of_lt (by omega), List.getElem?_set,
      List.getElem?_append_left (by simp; omega), List.getElem?_take_of_lt h1]
    rw [if_neg (by omega)]
  · by_cases h2 : i = n
    · subst h2
      rw [List.getElem?_take_of_lt (by omega), List.getElem?_set,
        List.getElem?_append_right (by simp)]
      have hmin : min i l.length = i := by omega
      simp [h, hmin]
    · rw [List.getElem?_eq_none (by simp; omega), List.getElem?_eq_none (by simp; omega)]

theorem map_getD_range {α : Type} (p : List (Option α)) (k : Nat) (h : k ≤ p.length) :
    (List.range k).map (fun i => p.getD (0 + i) none) = p.take k := by
  apply List.ext_getElem?
  intro i
  by_cases h1 : i < k
  · rw [List.getElem?_take_of_lt h1, List.getElem?_map, List.getElem?_range h1]
    simp [List.getD_eq_getElem?_getD, List.getElem?_eq_getElem (show i < p.length by omega)]
  · rw [List.getElem?_eq_none (by simp; omega), List.getElem?_eq_none (by simp; omega)]

/-! ### Queue lemmas -/

/-- The state of a queue filled from empty by enqueues only: nothing has wrapped. -/
theorem enqueueAll_init {α : Type} (c : Nat) (hc : 1 ≤ c) (xs : List α) :
    (enqueueAll (init_queue c) xs).head = 0 ∧
    (enqueueAll (init_queue c) xs).n = xs.length ∧
    (enqueueAll (init_queue c) xs).n < (enqueueAll (init_queue c) xs).sz ∧
    (enqueueAll (init_queue c) xs).p.length = (enqueueAll (init_queue c) xs).sz ∧
    (enqueueAll (init_queue c) xs).p.take xs.length = xs.map some := by
  induction xs using List.reverseRecOn with
  | nil => simp [enqueueAll, init_queue]; omega
  | append_singleton xs x ih =>
    have hstep : enqueueAll (init_queue c) (xs ++ [x])
        = enqueue (enqueueAll (init_queue c) xs) x := by
      simp [enqueueAll, List.foldl_append]
    rw [hstep]
    generalize enqueueAll (init_queue c) xs = q at ih
    obtain ⟨h0, hn, hlt, hlen, htake⟩ := ih
    by_cases hsz : q.sz = q.n + 1
    · have hp1 : realloc q.p (2 * q.sz) = q.p ++ List.replicate (2 * q.sz - q.p.length) none :=
        realloc_of_le q.p (2 * q.sz) (by omega)
      have hmod : (q.n) % (2 * q.sz) = q.n := Nat.mod_eq_of_lt (by omega)
      simp only [enqueue, if_pos hsz, resize_queue, h0, memcpy, Nat.zero_add]
      rw [hmod]
      refine ⟨trivial, by simp [hn], by omega, by simp [realloc_length], ?_⟩
      rw [List.length_append, List.length_singleton, ← hn,
        take_succ_set _ _ _ (by rw [realloc_length]; omega), hp1,
        List.take_append_of_le_length (by omega), hn, htake]
      simp
    · have hmod : (q.n) % q.sz = q.n := Nat.mod_eq_of_lt (by omega)
      simp only [enqueue, if_neg hsz, h0, Nat.zero_add]
      rw [hmod]
      refine ⟨trivial, by simp [hn], by omega, by simp [hlen], ?_⟩
      rw [List.length_append, List.length_singleton, ← hn,
        take_succ_set _ _ _ (by omega), hn, htake]
      simp

/-- Dequeuing `k` times from a queue whose first `k` live cells do not wrap. -/
theorem dequeueN_noWrap {α : Type} (k : Nat) : ∀ q : Queue α, k ≤ q.n → q.head + k < q.sz →
    dequeueN q k = .ok ((List.range k).map (fun i => q.p.getD (q.head + i) none),
      { q with n := q.n - k, head := q.head + k }) := by
  induction k with
  | zero => intro q _ _; simp [dequeueN]
  | succ k ih =>
    intro q hn hh
    have hne : q.n ≠ 0 := by omega
    have hmod : (q.head + 1) % q.sz = q.head + 1 := Nat.mod_eq_of_lt (by omega)
    simp only [dequeueN, dequeue, hne, if_false, hmod]
    rw [ih _ (by simp; omega) (by simp; omega)]
    simp only [List.range_succ_eq_map, List.map_cons, List.map_map, Nat.add_zero]
    refine congrArg Except.ok (Prod.ext ?_ ?_)
    · simp only [List.cons.injEq, true_and]
      apply List.map_congr_left
      intro i _
      simp [Nat.add_assoc, Nat.add_comm 1 i]
    · simp only [Queue.mk.injEq, true_and]
      omega

theorem enqueue_fields {α : Type} (q : Queue α) (x : α) :
    (enqueue q x).sz = (if q.sz = q.n + 1 then 2 * q.sz else q.sz) ∧
    (enqueue q x).n = q.n + 1 ∧ (enqueue q x).head = q.head := by
  by_cases h : q.sz = q.n + 1
  · simp only [enqueue, if_pos h, resize_queue]
    exact ⟨trivial, trivial, trivial⟩
  · simp only [enqueue, if_neg h]
    exact ⟨trivial, trivial, trivial⟩

theorem enqueue_length {α : Type} (q : Queue α) (x : α) (hlen : q.p.length = q.sz) :
    (enqueue q x).p.length = (enqueue q x).sz := by
  by_cases h : q.sz = q.n + 1
  · simp only [enqueue, if_pos h, resize_queue, List.length_set, memcpy_length, realloc_length]
  · simp only [enqueue, if_neg h, List.length_set, hlen]

/-- The representation invariant of the queue: one cell is always kept free. -/
theorem reachable_inv {α : Type} (c : Nat) (hc : 1 ≤ c) (q : Queue α) (h : Reachable c q) :
    q.n < q.sz ∧ q.head < q.sz ∧ q.p.length = q.sz := by
  induction h with
  | init => simp [init_queue]; omega
  | enq q x _ ih =>
    obtain ⟨h1, h2, h3⟩ := ih
    obtain ⟨e1, e2, e3⟩ := enqueue_fields q x
    refine ⟨?_, ?_, enqueue_length q x h3⟩
    · rw [e1, e2]; split <;> omega
    · rw [e1, e3]; split <;> omega
  | deq q _ hne ih =>
    obtain ⟨h1, h2, h3⟩ := ih
    simp only [dequeue, if_neg hne]
    exact ⟨by omega, Nat.mod_lt _ (by omega), h3⟩

/-! ### Claims on the queue -/

/-- C1 (evaluation of the code at the failing input): in a queue of initial capacity
4, after two enqueues and two dequeues (`head = 2`) the particles 3, 4, 5 are
enqueued, the last one wrapping to index 0; the enqueue of 6 then grows the queue,
and `resize_queue` copies cells 0 and 1 to indices 5 and 6 instead of 4 and 5.  The
four dequeues that follow return 3, 4, the never-written cell 4 and 6: particle 5 is
lost, where first-in first-out order requires 3, 4, 5, 6. -/
theorem C1_fifo_broken_by_wrapped_growth :
    run (init_queue 4) wrapOps
      = .ok ([some 1, some 2, some 3, some 4, none, some 6],
          { p := [some 5, some 2, some 3, some 4, none, some 6, some 2, none],
            sz := 8, head := 6, n := 0 }) ∧
    (enqueued wrapOps).take (dequeues wrapOps) = [1, 2, 3, 4, 5, 6] := by
  constructor <;> rfl

/-- C2: for every initial capacity `c ≥ 1` and every list `xs` of particles, enqueuing
`xs` into `init_queue c` and then dequeuing `xs.length` times succeeds and returns
the particles of `xs` in insertion order, whatever growths the enqueues forced; the
queue is left empty. -/
theorem C2_queue_round_trip {α : Type} (c : Nat) (hc : 1 ≤ c) (xs : List α) :
    dequeueN (enqueueAll (init_queue c) xs) xs.length
      = .ok (xs.map some,
          { enqueueAll (init_queue c) xs with n := 0, head := xs.length }) := by
  obtain ⟨h0, hn, hlt, hlen, htake⟩ := enqueueAll_init c hc xs
  rw [dequeueN_noWrap xs.length _ (by omega) (by omega), h0,
    map_getD_range _ _ (by omega), htake, hn]
  simp

/-- C2, witness of the specification: five particles through a queue of initial
capacity 4 (one growth, to capacity 8). -/
theorem C2_queue_round_trip_witness :
    1 ≤ 4 ∧ (enqueueAll (init_queue 4) [10, 20, 30, 40, 50]).sz = 8 ∧
    dequeueN (enqueueAll (init_queue 4) [10, 20, 30, 40, 50]) 5
      = .ok ([some 10, some 20, some 30, some 40, some 50],
          { enqueueAll (init_queue 4) [10, 20, 30, 40, 50] with n := 0, head := 5 }) :=
  ⟨by decide, by decide, C2_queue_round_trip 4 (by decide) [10, 20, 30, 40, 50]⟩

/-- C7: `dequeue` fails with the empty-queue error exactly when `n = 0`, and then
leaves the queue as it was; on a queue with `n > 0` it returns the cell at index
`head`, sets `n` to `n - 1` and `head` to `(head + 1) mod sz`, and leaves `sz` and the
array unchanged. -/
theorem C7_dequeue {α : Type} (q : Queue α) :
    ((dequeue q).1 = .error .emptyQueue ↔ q.n = 0) ∧
    (q.n = 0 → (dequeue q).2 = q) ∧
    (0 < q.n → (dequeue q).1 = .ok (q.p.getD q.head none) ∧
      (dequeue q).2 = { p := q.p, sz := q.sz, head := (q.head + 1) % q.sz, n := q.n - 1 }) := by
  by_cases h : q.n = 0
  · simp [dequeue, print_error, h]
  · have hd : dequeue q = (.ok (q.p.getD q.head none),
        { q with n := q.n - 1, head := (q.head + 1) % q.sz }) := by
      simp only [dequeue, if_neg h]
    rw [hd]
    exact ⟨by simp [h], fun h0 => absurd h0 h, fun _ => ⟨rfl, rfl⟩⟩

/-- The fields and the stored particle after `enqueue`, in the model, on a queue with
`sz ≥ 1` whose array has `sz` cells: `sz` changes exactly when `n + 1 = sz`, and then
to `2 * sz`; the particle is stored at index `(head + n) mod sz` for the new `sz`, `n`
has grown by one and `head` is unchanged.  (Where the copy of `resize_queue` leaves
the block the C call has no defined result; see `enqueue_checked`.) -/
theorem enqueue_model_spec {α : Type} (q : Queue α) (x : α) (hsz : 1 ≤ q.sz)
    (hlen : q.p.length = q.sz) :
    ((enqueue q x).sz ≠ q.sz ↔ q.n + 1 = q.sz) ∧
    (q.n + 1 = q.sz → (enqueue q x).sz = 2 * q.sz ∧ (enqueue q x).p.length = 2 * q.sz) ∧
    (q.n + 1 ≠ q.sz → (enqueue q x).sz = q.sz ∧ (enqueue q x).p.length = q.sz) ∧
    (enqueue q x).p[(q.head + q.n) % (enqueue q x).sz]? = some (some x) ∧
    (enqueue q x).n = q.n + 1 ∧
    (enqueue q x).head = q.head := by
  obtain ⟨e1, e2, e3⟩ := enqueue_fields q x
  have hl := enqueue_length q x hlen
  refine ⟨?_, ?_, ?_, ?_, e2, e3⟩
  · rw [e1]; split <;> omega
  · intro h
    have : (enqueue q x).sz = 2 * q.sz := by rw [e1, if_pos h.symm]
    exact ⟨this, by rw [hl, this]⟩
  · intro h
    have : (enqueue q x).sz = q.sz := by rw [e1, if_neg (fun h1 => h h1.symm)]
    exact ⟨this, by rw [hl, this]⟩
  · have hpos : 0 < (enqueue q x).sz := by rw [e1]; split <;> omega
    have hlt : (q.head + q.n) % (enqueue q x).sz < (enqueue q x).p.length := by
      rw [hl]; exact Nat.mod_lt _ hpos
    revert hlt
    by_cases h : q.sz = q.n + 1
    · simp only [enqueue, if_pos h, resize_queue]
      intro hlt
      rw [List.getElem?_set_self]; simpa using hlt
    · simp only [enqueue, if_neg h]
      intro hlt
      rw [List.getElem?_set_self]; simpa using hlt

/-- An instance of `enqueue_model_spec`: the enqueue that fills the last free cell but
one of a queue of capacity 4 doubles it. -/
theorem enqueue_model_spec_instance :
    (enqueue ({ p := [some 1, some 2, some 3, none], sz := 4, head := 0, n := 3 } : Queue Nat) 9)
      = { p := [some 1, some 2, some 3, some 9, none, none, none, none],
          sz := 8, head := 0, n := 4 } ∧
    (enqueue ({ p := [some 1, some 2, some 3, none], sz := 4, head := 0, n := 3 } : Queue Nat) 9).p[
      (0 + 3) % (enqueue
        ({ p := [some 1, some 2, some 3, none], sz := 4, head := 0, n := 3 } : Queue Nat) 9).sz]?
      = some (some 9) :=
  ⟨by decide,
    (enqueue_model_spec ({ p := [some 1, some 2, some 3, none], sz := 4, head := 0, n := 3 } : Queue Nat)
      9 (by decide) (by decide)).2.2.2.1⟩

/-- C9: in every queue state reachable from `init_queue c`, `c ≥ 1`, by enqueues and
dequeues on a non-empty queue, `n ≤ sz` and `head < sz` hold, and the `n` live
positions `(head + k) mod sz`, `k < n`, are pairwise distinct indices of the array. -/
theorem C9_queue_invariant {α : Type} (c : Nat) (hc : 1 ≤ c) (q : Queue α)
    (h : Reachable c q) :
    q.n ≤ q.sz ∧ q.head < q.sz ∧
    (∀ k, k < q.n → (q.head + k) % q.sz < q.p.length) ∧
    (∀ k1 k2, k1 < q.n → k2 < q.n →
      (q.head + k1) % q.sz = (q.head + k2) % q.sz → k1 = k2) := by
  obtain ⟨h1, h2, h3⟩ := reachable_inv c hc q h
  refine ⟨by omega, h2, ?_, ?_⟩
  · intro k _
    rw [h3]
    exact Nat.mod_lt _ (by omega)
  · intro k1 k2 hk1 hk2 heq
    have hm : k1 ≡ k2 [MOD q.sz] := Nat.ModEq.add_left_cancel' q.head heq
    exact Nat.ModEq.eq_of_lt_of_lt hm (by omega) (by omega)

/-- C9, witness: the state reached from `init_queue 4` by two enqueues, two dequeues
and three more enqueues, the last of which wraps to index 0. -/
theorem C9_queue_invariant_witness :
    1 ≤ 4 ∧ Reachable 4 wrappedState ∧
    wrappedState = { p := [some 5, some 2, some 3, some 4], sz := 4, head := 2, n := 3 } ∧
    (wrappedState.n ≤ wrappedState.sz ∧ wrappedState.head < wrappedState.sz ∧
      (∀ k, k < wrappedState.n →
        (wrappedState.head + k) % wrappedState.sz < wrappedState.p.length) ∧
      (∀ k1 k2, k1 < wrappedState.n → k2 < wrappedState.n →
        (wrappedState.head + k1) % wrappedState.sz = (wrappedState.head + k2) % wrappedState.sz →
        k1 = k2)) :=
  have hr : Reachable 4 wrappedState :=
    Reachable.enq _ 5 (Reachable.enq _ 4 (Reachable.enq _ 3
      (Reachable.deq _ (Reachable.deq _
        (Reachable.enq _ 2 (Reachable.enq _ 1 Reachable.init)) (by decide)) (by decide))))
  ⟨by decide, hr, by decide, C9_queue_invariant 4 (by decide) wrappedState hr⟩

/-! ### Lemmas on `synchronize_bank` -/

theorem memcpy_eq {β : Type} (dst : List β) (d : Nat) (src : List β) (s len : Nat)
    (hd : d + len ≤ dst.length) (hs : s + len ≤ src.length) :
    memcpy dst d src s len = dst.take d ++ (src.drop s).take len ++ dst.drop (d + len) := by
  apply List.ext_getElem?
  intro i
  rw [memcpy_getElem?]
  by_cases h1 : i < d
  · rw [if_neg (by omega), List.append_assoc,
      List.getElem?_append_left (by simp; omega), List.getElem?_take_of_lt h1]
  · by_cases h2 : i < d + len
    · rw [if_pos (by omega), List.getElem?_append_left (by simp; omega),
        List.getElem?_append_right (by simp; omega)]
      have hmin : min d dst.length = d := by omega
      rw [List.length_take, hmin, List.getElem?_take_of_lt (by omega), List.getElem?_drop]
    · rw [if_neg (by omega), List.getElem?_append_right (by simp; omega)]
      have hmin : min d dst.length = d := by omega
      have hmin2 : min len (src.length - s) = len := by omega
      simp only [List.length_append, List.length_take, List.length_drop, hmin, hmin2,
        List.getElem?_drop]
      congr 1
      omega

theorem memcpy_one {β : Type} (dst : List β) (d : Nat) (src : List β) (s : Nat)
    (hs : s < src.length) : memcpy dst d src s 1 = dst.set d src[s] := by
  simp only [memcpy, Nat.add_zero, List.getElem?_eq_getElem hs]

theorem samples_length {α G W : Type} (sample : G → W → α × W) (g : G) (k : Nat) (w : W) :
    (samples sample g k w).length = k := by
  induction k generalizing w with
  | zero => rfl
  | succ k ih => simp [samples, ih]

theorem sample_loop_eq {α G W : Type} (sample : G → W → α × W) (g : G) (cnt : Nat) :
    ∀ (i : Nat) (sp : List α) (w : W), i + cnt ≤ sp.length →
      (sample_loop sample g cnt i sp w).1
        = sp.take i ++ samples sample g cnt w ++ sp.drop (i + cnt) := by
  induction cnt with
  | zero => intro i sp w _; simp [sample_loop, samples]
  | succ cnt ih =>
    intro i sp w h
    simp only [sample_loop, samples]
    rw [ih (i + 1) _ _ (by simp; omega), take_succ_set _ _ _ (by omega),
      List.drop_set_of_lt _ _ (by omega)]
    simp [Nat.add_assoc, Nat.add_comm 1 cnt]

theorem map_some_take {β : Type} (l : List β) (k : Nat) (h : k ≤ l.length) :
    (l.take k).map some = (List.range k).map (fun t => l[t]?) := by
  apply List.ext_getElem?
  intro i
  by_cases h1 : i < k
  · rw [List.getElem?_map, List.getElem?_take_of_lt h1, List.getElem?_map,
      List.getElem?_range h1, List.getElem?_eq_getElem (show i < l.length by omega)]
    simp [List.getElem?_eq_getElem (show i < l.length by omega)]
  · rw [List.getElem?_eq_none (by simp; omega), List.getElem?_eq_none (by simp; omega)]

/-- The invariant of the replacement loop: the first `n_s` slots of the source array
hold the fission entries of `n_s` pairwise distinct indices below the loop index. -/
theorem reservoir_loop_inv {α W : Type} (rand : W → Nat × W) (fp : List α) (n_s : Nat)
    (cnt : Nat) : ∀ (i : Nat) (sp : List α) (w : W), i + cnt ≤ fp.length →
      (∃ idx : List Nat, idx.length = n_s ∧ idx.Nodup ∧ (∀ t ∈ idx, t < i) ∧
        (sp.take n_s).map some = idx.map (fun t => fp[t]?)) →
      ∃ idx : List Nat, idx.length = n_s ∧ idx.Nodup ∧ (∀ t ∈ idx, t < i + cnt) ∧
        ((reservoir_loop rand fp n_s cnt i sp w).1.take n_s).map some
          = idx.map (fun t => fp[t]?) := by
  induction cnt with
  | zero => intro i sp w _ h; simpa [reservoir_loop] using h
  | succ cnt ih =>
    intro i sp w hi ⟨idx, hlen, hnd, hlt, hmap⟩
    simp only [reservoir_loop]
    have hstep : ∃ idx1 : List Nat, idx1.length = n_s ∧ idx1.Nodup ∧
        (∀ t ∈ idx1, t < i + 1) ∧
        ((if (rand w).1 % (i + 1) < n_s then memcpy sp ((rand w).1 % (i + 1)) fp i 1
            else sp).take n_s).map some = idx1.map (fun t => fp[t]?) := by
      by_cases hj : (rand w).1 % (i + 1) < n_s
      · refine ⟨idx.set ((rand w).1 % (i + 1)) i, by simp [hlen], ?_, ?_, ?_⟩
        · exact hnd.set (fun hmem => Nat.lt_irrefl i (hlt i hmem))
        · intro t ht
          rcases List.mem_or_eq_of_mem_set ht with h1 | h1
          · exact Nat.lt_succ_of_lt (hlt t h1)
          · omega
        · rw [if_pos hj, memcpy_one _ _ _ _ (by omega), List.set_take, List.map_set, hmap,
            List.map_set, List.getElem?_eq_getElem (show i < fp.length by omega)]
      · exact ⟨idx, hlen, hnd, fun t ht => Nat.lt_succ_of_lt (hlt t ht), by rw [if_neg hj, hmap]⟩
    have := ih (i + 1) _ (rand w).2 (by omega) hstep
    rwa [Nat.add_assoc, Nat.add_comm 1 cnt] at this

/-! ### Claims on `synchronize_bank` -/

/-- C3: when the fission bank holds at least as many particles as the source bank
(`n_f ≥ n_s`), whatever the generator draws, `synchronize_bank` leaves the source bank
with `n = n_s`, and there are `n_s` pairwise distinct fission-bank indices below
`n_f`, one per slot, such that slot `j` holds a copy of the fission entry of the
`j`-th index. -/
theorem C3_resample_distinct_indices {α G W : Type} (rand : W → Nat × W)
    (sample : G → W → α × W) (source_bank fission_bank : Bank α) (g : G) (w : W)
    (hle : source_bank.n ≤ fission_bank.n) (hs : source_bank.n ≤ source_bank.p.length)
    (hf : fission_bank.n ≤ fission_bank.p.length) :
    (synchronize_bank rand sample source_bank fission_bank g w).1.n = source_bank.n ∧
    ∃ idx : List Nat, idx.length = source_bank.n ∧ idx.Nodup ∧
      (∀ t ∈ idx, t < fission_bank.n) ∧
      ((synchronize_bank rand sample source_bank fission_bank g w).1.p.take
        source_bank.n).map some = idx.map (fun t => fission_bank.p[t]?) := by
  have hge : fission_bank.n ≥ source_bank.n := hle
  simp only [synchronize_bank, if_pos hge, true_and]
  have h0 : ∃ idx : List Nat, idx.length = source_bank.n ∧ idx.Nodup ∧
      (∀ t ∈ idx, t < source_bank.n) ∧
      ((memcpy source_bank.p 0 fission_bank.p 0 source_bank.n).take source_bank.n).map some
        = idx.map (fun t => fission_bank.p[t]?) := by
    refine ⟨List.range source_bank.n, by simp, List.nodup_range _, by simp, ?_⟩
    rw [memcpy_eq _ _ _ _ _ (by omega) (by omega), ← map_some_take _ _ (by omega)]
    simp [List.take_append_eq_append_take, List.take_take]
    omega
  have := reservoir_loop_inv rand fission_bank.p source_bank.n
    (fission_bank.n - source_bank.n) source_bank.n
    (memcpy source_bank.p 0 fission_bank.p 0 source_bank.n) w (by omega) h0
  rwa [Nat.add_sub_cancel' hle] at this

/-- C3, witness: a source bank of 2 particles, a fission bank of 4 particles (in an
array of 5) and the draws 0 and 3: slot 0 is replaced by fission entry 2. -/
theorem C3_resample_distinct_indices_witness :
    (synchronize_bank nextDraw (fun (_ : Unit) (w : List Nat) => (0, w))
      { p := [9, 9, 9], sz := 3, n := 2 } { p := [10, 11, 12, 13, 14], sz := 5, n := 4 } ()
      [0, 3]).1 = { p := [12, 11, 9], sz := 3, n := 2 } ∧
    ∃ idx : List Nat, idx.length = 2 ∧ idx.Nodup ∧ (∀ t ∈ idx, t < 4) ∧
      ((synchronize_bank nextDraw (fun (_ : Unit) (w : List Nat) => (0, w))
        { p := [9, 9, 9], sz := 3, n := 2 } { p := [10, 11, 12, 13, 14], sz := 5, n := 4 } ()
        [0, 3]).1.p.take 2).map some = idx.map (fun t => [10, 11, 12, 13, 14][t]?) :=
  ⟨by decide,
    (C3_resample_distinct_indices nextDraw (fun (_ : Unit) (w : List Nat) => (0, w))
      { p := [9, 9, 9], sz := 3, n := 2 } { p := [10, 11, 12, 13, 14], sz := 5, n := 4 } ()
      [0, 3] (by decide) (by decide) (by decide)).2⟩

/-- C5: when the fission bank holds fewer particles than the source bank
(`n_f < n_s`, `n_f = 0` included), `synchronize_bank` leaves the source bank with
`n = n_s`; its first `n_s - n_f` slots hold the `n_s - n_f` particles the source
sampler produces, in the order drawn, and the `n_f` slots after them hold the `n_f`
fission particles in their order. -/
theorem C5_refill_from_source {α G W : Type} (rand : W → Nat × W)
    (sample : G → W → α × W) (source_bank fission_bank : Bank α) (g : G) (w : W)
    (hlt : fission_bank.n < source_bank.n) (hs : source_bank.n ≤ source_bank.p.length)
    (hf : fission_bank.n ≤ fission_bank.p.length) :
    (synchronize_bank rand sample source_bank fission_bank g w).1.n = source_bank.n ∧
    (synchronize_bank rand sample source_bank fission_bank g w).1.p.take source_bank.n
      = samples sample g (source_bank.n - fission_bank.n) w
        ++ fission_bank.p.take fission_bank.n := by
  have hge : ¬ fission_bank.n ≥ source_bank.n := by omega
  simp only [synchronize_bank, if_neg hge, true_and]
  have hl : (sample_loop sample g (source_bank.n - fission_bank.n) 0 source_bank.p w).1
      = samples sample g (source_bank.n - fission_bank.n) w
        ++ source_bank.p.drop (source_bank.n - fission_bank.n) := by
    rw [sample_loop_eq _ _ _ _ _ _ (by omega)]
    simp
  have hlen : (sample_loop sample g (source_bank.n - fission_bank.n) 0 source_bank.p w).1.length
      = source_bank.p.length := by
    rw [hl]; simp [samples_length]; omega
  rw [memcpy_eq _ _ _ _ _ (by omega) (by omega), hl]
  have e1 : (samples sample g (source_bank.n - fission_bank.n) w
      ++ source_bank.p.drop (source_bank.n - fission_bank.n)).take
        (source_bank.n - fission_bank.n)
      = samples sample g (source_bank.n - fission_bank.n) w := by
    rw [List.take_append_of_le_length (by rw [samples_length]),
      List.take_of_length_le (by rw [samples_length])]
  rw [e1, List.drop_zero, List.append_assoc, List.take_append_eq_append_take,
    List.take_of_length_le (by rw [samples_length]; omega), samples_length,
    List.take_append_eq_append_take, List.take_take]
  have e2 : source_bank.n - (source_bank.n - fission_bank.n) = fission_bank.n := by omega
  have e3 : min fission_bank.n fission_bank.n = fission_bank.n := by omega
  have e4 : (List.take fission_bank.n fission_bank.p).length = fission_bank.n := by
    rw [List.length_take]; omega
  rw [e2, e3, e4, Nat.sub_self, List.take_zero, List.append_nil]

/-- C6: in both branches `synchronize_bank` leaves the fission bank with `n = 0`, its
capacity `sz` and its array unchanged, and leaves `n` and `sz` of the source bank
unchanged. -/
theorem C6_fission_bank_reset {α G W : Type} (rand : W → Nat × W)
    (sample : G → W → α × W) (source_bank fission_bank : Bank α) (g : G) (w : W) :
    (synchronize_bank rand sample source_bank fission_bank g w).2.1
      = { p := fission_bank.p, sz := fission_bank.sz, n := 0 } ∧
    (synchronize_bank rand sample source_bank fission_bank g w).1.n = source_bank.n ∧
    (synchronize_bank rand sample source_bank fission_bank g w).1.sz = source_bank.sz := by
  simp only [synchronize_bank]
  split <;> exact ⟨rfl, rfl, rfl⟩

/-- C5, witness of the specification: an empty fission bank and a source bank of 100
particles; the sampler of the witness returns its state and increments it, so the 100
slots are the fresh samples 5, 6, ..., 104. -/
theorem C5_refill_from_source_witness :
    (0 : Nat) < 100 ∧
    (synchronize_bank (fun (w : Nat) => (w, w)) (fun (_ : Unit) (w : Nat) => (w, w + 1))
      { p := List.replicate 100 0, sz := 100, n := 100 }
      { p := List.replicate 100 0, sz := 100, n := 0 } () 5).1.n = 100 ∧
    (synchronize_bank (fun (w : Nat) => (w, w)) (fun (_ : Unit) (w : Nat) => (w, w + 1))
      { p := List.replicate 100 0, sz := 100, n := 100 }
      { p := List.replicate 100 0, sz := 100, n := 0 } () 5).1.p.take 100
      = samples (fun (_ : Unit) (w : Nat) => (w, w + 1)) () (100 - 0) 5
        ++ (List.replicate 100 0).take 0 :=
  ⟨by decide,
    C5_refill_from_source (fun (w : Nat) => (w, w)) (fun (_ : Unit) (w : Nat) => (w, w + 1))
      { p := List.replicate 100 0, sz := 100, n := 100 }
      { p := List.replicate 100 0, sz := 100, n := 0 } () 5
      (by decide) (by decide) (by decide)⟩

/-! ### Counting draw sequences -/

theorem length_flatMap_const {A B : Type} (l : List A) (f : A → List B) (a : Nat)
    (h : ∀ x ∈ l, (f x).length = a) : (l.flatMap f).length = a * l.length := by
  induction l with
  | nil => simp
  | cons x xs ih =>
    rw [List.flatMap_cons, List.length_append, h x (List.mem_cons_self _ _),
      ih (fun y hy => h y (List.mem_cons_of_mem _ hy)), List.length_cons, Nat.mul_succ,
      Nat.add_comm]

theorem length_filter_flatMap {A B : Type} (l : List A) (f : A → List B) (P : B → Bool)
    (Q : A → Bool) (a : Nat)
    (h : ∀ x ∈ l, ((f x).filter P).length = if Q x = true then a else 0) :
    ((l.flatMap f).filter P).length = a * (l.filter Q).length := by
  induction l with
  | nil => simp
  | cons x xs ih =>
    rw [List.flatMap_cons, List.filter_append, List.length_append,
      h x (List.mem_cons_self _ _), ih (fun y hy => h y (List.mem_cons_of_mem _ hy))]
    by_cases hq : Q x = true
    · rw [if_pos hq, List.filter_cons_of_pos hq, List.length_cons, Nat.mul_succ, Nat.add_comm]
    · rw [if_neg hq, List.filter_cons_of_neg hq, Nat.zero_add]

theorem length_filter_range_lt (n m : Nat) (h : m ≤ n) :
    ((List.range n).filter (fun v => decide (v < m))).length = m := by
  induction n with
  | zero =>
    have : m = 0 := by omega
    subst this; rfl
  | succ n ih =>
    rw [List.range_succ, List.filter_append, List.length_append]
    by_cases hm : m ≤ n
    · rw [ih hm, List.filter_cons_of_neg (by simp; omega)]
      rfl
    · have hmn : m = n + 1 := by omega
      have hall : (List.range n).filter (fun v => decide (v < m)) = List.range n := by
        rw [List.filter_eq_self]
        intro v hv
        have := List.mem_range.1 hv
        simp; omega
      rw [hall, List.filter_cons_of_pos (by simp; omega)]
      simp [hmn]

theorem length_filter_range_ne (n v0 : Nat) (h : v0 < n) :
    ((List.range n).filter (fun v => decide (v ≠ v0))).length = n - 1 := by
  induction n with
  | zero => omega
  | succ n ih =>
    rw [List.range_succ, List.filter_append, List.length_append]
    by_cases hv : v0 < n
    · rw [ih hv, List.filter_cons_of_pos (by simp; omega)]
      simp; omega
    · have hvn : v0 = n := by omega
      have hall : (List.range n).filter (fun v => decide (v ≠ v0)) = List.range n := by
        rw [List.filter_eq_self]
        intro v hv
        have := List.mem_range.1 hv
        simp; omega
      rw [hall, List.filter_cons_of_neg (by simp [hvn])]
      simp

theorem drawSeqs_mem_length (n_s len : Nat) :
    ∀ js, js ∈ drawSeqs n_s len → js.length = len := by
  induction len with
  | zero => intro js h; simp [drawSeqs] at h; simp [h]
  | succ len ih =>
    intro js h
    simp only [drawSeqs, List.mem_flatMap, List.mem_map] at h
    obtain ⟨js0, h0, v, _, rfl⟩ := h
    simp [ih js0 h0]

theorem drawSeqs_length_succ (n_s len : Nat) :
    (drawSeqs n_s (len + 1)).length = (n_s + len + 1) * (drawSeqs n_s len).length := by
  simp only [drawSeqs]
  exact length_flatMap_const _ _ _ (fun x _ => by simp)

/-! ### The replacement loop on explicit draws -/

/-- The last iteration of the replacement loop, peeled off. -/
theorem reservoir_loop_snoc {α : Type} (fp : List α) (n_s len : Nat) :
    ∀ (i : Nat) (sp : List α) (js : List Nat) (v : Nat), js.length = len →
      (reservoir_loop nextDraw fp n_s (len + 1) i sp (js ++ [v])).1 =
        if v % (i + len + 1) < n_s
        then memcpy (reservoir_loop nextDraw fp n_s len i sp js).1 (v % (i + len + 1)) fp
          (i + len) 1
        else (reservoir_loop nextDraw fp n_s len i sp js).1 := by
  induction len with
  | zero =>
    intro i sp js v h
    have : js = [] := List.length_eq_zero.1 h
    subst this
    simp [reservoir_loop, nextDraw]
  | succ len ih =>
    intro i sp js v h
    cases js with
    | nil => simp at h
    | cons a js0 =>
      have hl : js0.length = len := by simpa using h
      have e : i + 1 + len = i + (len + 1) := by omega
      have := ih (i + 1) (if a % (i + 1) < n_s then memcpy sp (a % (i + 1)) fp i 1 else sp)
        js0 v hl
      rw [e] at this
      simpa [reservoir_loop, nextDraw] using this

/-- A run of the replacement loop splits at any iteration: the state after the
iteration at index `i + a - 1` of a longer run is the final state of the run that
stops there. -/
theorem reservoir_loop_add {α W : Type} (rand : W → Nat × W) (fp : List α) (n_s : Nat)
    (a b : Nat) : ∀ (i : Nat) (sp : List α) (w : W),
      reservoir_loop rand fp n_s (a + b) i sp w
        = reservoir_loop rand fp n_s b (i + a) (reservoir_loop rand fp n_s a i sp w).1
            (reservoir_loop rand fp n_s a i sp w).2 := by
  induction a with
  | zero => intro i sp w; simp [reservoir_loop]
  | succ a ih =>
    intro i sp w
    have e : a + 1 + b = (a + b) + 1 := by omega
    have e2 : i + (a + 1) = i + 1 + a := by omega
    rw [e, e2]
    simp only [reservoir_loop]
    rw [ih]

/-- On a fission bank whose particle at index `k` is `k`, the reservoir is at every
time a list of `n_s` pairwise distinct indices below the loop index. -/
theorem labelled_reservoir {W : Type} (rand : W → Nat × W) (N n_s len : Nat)
    (sp0 : List Nat) (w : W) (hN : n_s + len ≤ N) (h0 : sp0.take n_s = List.range n_s) :
    ((reservoir_loop rand (List.range N) n_s len n_s sp0 w).1.take n_s).length = n_s ∧
    ((reservoir_loop rand (List.range N) n_s len n_s sp0 w).1.take n_s).Nodup ∧
    ∀ t ∈ (reservoir_loop rand (List.range N) n_s len n_s sp0 w).1.take n_s,
      t < n_s + len := by
  have hsome : ∀ idx : List Nat, (∀ t ∈ idx, t < N) →
      idx.map (fun t => (List.range N)[t]?) = idx.map some := by
    intro idx h
    apply List.map_congr_left
    intro t ht
    simp [List.getElem?_range (h t ht)]
  have hinit : ∃ idx : List Nat, idx.length = n_s ∧ idx.Nodup ∧ (∀ t ∈ idx, t < n_s) ∧
      (sp0.take n_s).map some = idx.map (fun t => (List.range N)[t]?) := by
    refine ⟨List.range n_s, by simp, List.nodup_range _, by simp, ?_⟩
    rw [h0, hsome]
    intro t ht
    have := List.mem_range.1 ht
    omega
  obtain ⟨idx, hlen, hnd, hlt, hmap⟩ :=
    reservoir_loop_inv rand (List.range N) n_s len n_s sp0 w (by simp; omega) hinit
  rw [hsome idx (fun t ht => by have := hlt t ht; omega)] at hmap
  have heq := List.map_injective_iff.2 (Option.some_injective Nat) hmap
  rw [heq]
  exact ⟨hlen, hnd, hlt⟩

/-- Replacing the slot `v` of a duplicate-free reservoir by a new index removes the
index `k` exactly when `v` is the slot of `k`. -/
theorem mem_set_iff_ne_indexOf (res : List Nat) (k i v : Nat) (hnd : res.Nodup)
    (hk : k ∈ res) (hki : k ≠ i) : k ∈ res.set v i ↔ v ≠ res.indexOf k := by
  have hv0 : res.indexOf k < res.length := List.indexOf_lt_length.2 hk
  have hget : res[res.indexOf k] = k := List.getElem_indexOf hv0
  constructor
  · intro hmem hv
    obtain ⟨t, ht, hkt⟩ := List.getElem_of_mem hmem
    rw [List.getElem_set] at hkt
    split at hkt
    · exact hki hkt.symm
    · rename_i hne
      rw [List.length_set] at ht
      have := hnd.getElem_inj_iff.1 (hkt.trans hget.symm)
      omega
  · intro hv
    have h1 : res.indexOf k < (res.set v i).length := by rw [List.length_set]; exact hv0
    have h2 : (res.set v i)[res.indexOf k] = k := by
      rw [List.getElem_set, if_neg hv, hget]
    exact h2 ▸ List.getElem_mem h1

/-- The number of draws of one iteration that leave the index `k` in the reservoir. -/
theorem count_one_draw (res : List Nat) (n_s i k : Nat) (hlen : res.length = n_s)
    (hnd : res.Nodup) (hlt : ∀ t ∈ res, t < i) (hi : n_s ≤ i) :
    ((List.range (i + 1)).filter
      (fun v => decide (k ∈ if v < n_s then res.set v i else res))).length
      = if k = i then n_s else if k ∈ res then i else 0 := by
  have hires : i ∉ res := fun h => Nat.lt_irrefl i (hlt i h)
  by_cases hk : k = i
  · subst hk
    have hf : (List.range (k + 1)).filter
        (fun v => decide (k ∈ if v < n_s then res.set v k else res))
        = (List.range (k + 1)).filter (fun v => decide (v < n_s)) := by
      apply List.filter_congr
      intro v _
      by_cases hv : v < n_s
      · simp [hv, List.mem_set res v (by omega) k]
      · simp [hv, hires]
    rw [if_pos rfl, hf, length_filter_range_lt (k + 1) n_s (by omega)]
  · rw [if_neg hk]
    by_cases hmem : k ∈ res
    · have hv0 : res.indexOf k < res.length := List.indexOf_lt_length.2 hmem
      have hf : (List.range (i + 1)).filter
          (fun v => decide (k ∈ if v < n_s then res.set v i else res))
          = (List.range (i + 1)).filter (fun v => decide (v ≠ res.indexOf k)) := by
        apply List.filter_congr
        intro v _
        by_cases hv : v < n_s
        · simp only [hv, if_true, decide_eq_decide]
          exact mem_set_iff_ne_indexOf res k i v hnd hmem hk
        · simp only [hv, if_false, hmem, decide_True]
          simp
          omega
      rw [if_pos hmem, hf, length_filter_range_ne (i + 1) (res.indexOf k) (by omega)]
      rfl
    · rw [if_neg hmem]
      have : (List.range (i + 1)).filter
          (fun v => decide (k ∈ if v < n_s then res.set v i else res)) = [] := by
        rw [List.filter_eq_nil_iff]
        intro v _
        by_cases hv : v < n_s
        · simp only [hv, if_true, decide_eq_true_eq]
          intro h
          rcases List.mem_or_eq_of_mem_set h with h1 | h1
          · exact hmem h1
          · exact hk h1
        · simpa [hv] using hmem
      rw [this]
      rfl

/-- The draws of the iteration at index `n_s + len` that leave the index `k` in the
reservoir, after the draws `js` of the iterations before. -/
theorem count_step (N n_s len : Nat) (sp0 : List Nat) (hN : n_s + len + 1 ≤ N)
    (h0 : sp0.take n_s = List.range n_s) (k : Nat) (js : List Nat) (hjs : js.length = len) :
    (((List.range (n_s + len + 1)).map (fun v => js ++ [v])).filter (fun js1 =>
      decide (k ∈ (reservoir_loop nextDraw (List.range N) n_s (len + 1) n_s sp0 js1).1.take
        n_s))).length
      = if k = n_s + len then n_s
        else if k ∈ (reservoir_loop nextDraw (List.range N) n_s len n_s sp0 js).1.take n_s
        then n_s + len else 0 := by
  obtain ⟨hlen, hnd, hlt⟩ := labelled_reservoir nextDraw N n_s len sp0 js (by omega) h0
  rw [← count_one_draw _ n_s (n_s + len) k hlen hnd hlt (by omega), List.filter_map,
    List.length_map]
  congr 1
  apply List.filter_congr
  intro v hv
  have hv1 : v < n_s + len + 1 := List.mem_range.1 hv
  have hmod : v % (n_s + len + 1) = v := Nat.mod_eq_of_lt hv1
  simp only [Function.comp, reservoir_loop_snoc _ _ _ _ _ _ _ hjs, hmod]
  by_cases hvn : v < n_s
  · rw [if_pos hvn, if_pos hvn, memcpy_one _ _ _ _ (by simp; omega), List.set_take]
    simp
  · rw [if_neg hvn, if_neg hvn]

/-- Uniformity of the replacement loop, by induction on the number of iterations:
counted over all draw sequences, every index below the loop index is in the
reservoir in the fraction `n_s / (n_s + len)` of the sequences. -/
theorem count_uniform (N n_s : Nat) (sp0 : List Nat) (h0 : sp0.take n_s = List.range n_s) :
    ∀ len, n_s + len ≤ N → ∀ k, k < n_s + len →
      ((drawSeqs n_s len).filter (fun js =>
        decide (k ∈ (reservoir_loop nextDraw (List.range N) n_s len n_s sp0 js).1.take
          n_s))).length * (n_s + len) = n_s * (drawSeqs n_s len).length := by
  intro len
  induction len with
  | zero =>
    intro _ k hk
    have : k ∈ List.take n_s sp0 := by rw [h0]; exact List.mem_range.2 hk
    simp [drawSeqs, reservoir_loop, this]
  | succ len ih =>
    intro hN k hk
    rw [drawSeqs_length_succ]
    by_cases hkl : k = n_s + len
    · have hc := length_filter_flatMap (drawSeqs n_s len)
        (fun js => (List.range (n_s + len + 1)).map (fun v => js ++ [v]))
        (fun js1 => decide (k ∈ (reservoir_loop nextDraw (List.range N) n_s (len + 1) n_s sp0
          js1).1.take n_s))
        (fun _ => true) n_s
        (fun js hjs => by
          rw [count_step N n_s len sp0 (by omega) h0 k js (drawSeqs_mem_length n_s len js hjs),
            if_pos hkl, if_pos rfl])
      have hall : (drawSeqs n_s len).filter (fun _ => true) = drawSeqs n_s len :=
        List.filter_eq_self.2 (fun _ _ => rfl)
      rw [hall] at hc
      simp only [drawSeqs]
      rw [hc, ← Nat.add_assoc]
      ring
    · have hc := length_filter_flatMap (drawSeqs n_s len)
        (fun js => (List.range (n_s + len + 1)).map (fun v => js ++ [v]))
        (fun js1 => decide (k ∈ (reservoir_loop nextDraw (List.range N) n_s (len + 1) n_s sp0
          js1).1.take n_s))
        (fun js => decide (k ∈ (reservoir_loop nextDraw (List.range N) n_s len n_s sp0
          js).1.take n_s)) (n_s + len)
        (fun js hjs => by
          rw [count_step N n_s len sp0 (by omega) h0 k js (drawSeqs_mem_length n_s len js hjs),
            if_neg hkl]
          simp only [decide_eq_true_eq])
      have hih := ih (by omega) k (by omega)
      simp only [drawSeqs]
      rw [hc, ← Nat.add_assoc]
      have key : ∀ C T a : Nat, C * a = n_s * T → a * C * (a + 1) = n_s * ((a + 1) * T) := by
        intro C T a h
        calc a * C * (a + 1) = (C * a) * (a + 1) := by ring
          _ = n_s * T * (a + 1) := by rw [h]
          _ = n_s * ((a + 1) * T) := by ring
      exact key _ _ _ hih

theorem drawSeqs_length_eq_prod (n_s len : Nat) :
    (drawSeqs n_s len).length = ∏ i ∈ Finset.Ico n_s (n_s + len), (i + 1) := by
  induction len with
  | zero => simp [drawSeqs]
  | succ len ih =>
    rw [drawSeqs_length_succ, ih, ← Nat.add_assoc,
      Finset.prod_Ico_succ_top (Nat.le_add_right n_s len), Nat.mul_comm]

theorem drawSeqs_mem_iff (n_s len : Nat) :
    ∀ js, js ∈ drawSeqs n_s len ↔
      js.length = len ∧ ∀ t v, js[t]? = some v → v ≤ n_s + t := by
  induction len with
  | zero =>
    intro js
    simp only [drawSeqs, List.mem_singleton]
    constructor
    · rintro rfl
      simp
    · rintro ⟨h, _⟩
      exact List.length_eq_zero.1 h
  | succ len ih =>
    intro js
    simp only [drawSeqs, List.mem_flatMap, List.mem_map, List.mem_range]
    constructor
    · rintro ⟨js0, h0, v, hv, rfl⟩
      obtain ⟨hl, hb⟩ := (ih js0).1 h0
      refine ⟨by simp [hl], ?_⟩
      intro t u htu
      by_cases ht : t < js0.length
      · rw [List.getElem?_append_left ht] at htu
        exact hb t u htu
      · rw [List.getElem?_append_right (by omega)] at htu
        have ht0 : t - js0.length = 0 := by
          by_contra hne
          rw [List.getElem?_eq_none (by simp; omega)] at htu
          cases htu
        rw [ht0] at htu
        simp at htu
        omega
    · rintro ⟨hl, hb⟩
      rcases List.eq_nil_or_concat js with rfl | ⟨js0, v, rfl⟩
      · simp at hl
      · rw [List.concat_eq_append] at hl hb ⊢
        have hl0 : js0.length = len := by simpa using hl
        refine ⟨js0, (ih js0).2 ⟨hl0, ?_⟩, v, ?_, rfl⟩
        · intro t u htu
          have ht : t < js0.length := by
            by_contra hne
            rw [List.getElem?_eq_none (by omega)] at htu
            cases htu
          exact hb t u (by rw [List.getElem?_append_left ht]; exact htu)
        · have := hb js0.length v (by simp)
          omega

theorem drawSeqs_nodup (n_s len : Nat) : (drawSeqs n_s len).Nodup := by
  induction len with
  | zero => simp [drawSeqs]
  | succ len ih =>
    simp only [drawSeqs]
    rw [List.nodup_flatMap]
    constructor
    · intro js _
      apply List.Nodup.map _ (List.nodup_range _)
      intro a b hab
      simpa using hab
    · apply List.Pairwise.imp _ ih
      intro a b hab x hxa hxb
      simp only [List.mem_map] at hxa hxb
      obtain ⟨v, _, rfl⟩ := hxa
      obtain ⟨u, _, hu⟩ := hxb
      exact hab (List.append_inj' hu rfl).1.symm

/-- C4: let the fission bank hold, labelled by their indices, `m` particles (in an
array of `N ≥ m` cells) and let the source bank hold `n_s ≤ m`.  The draw sequences of
the replacement loop, the draw at index `i` ranging over `0, ..., i`, are enumerated
without repetition by `drawSeqs n_s (m - n_s)`, and there are `∏ (i + 1)` of them
(`i` from `n_s` to `m - 1`).  For every index `k < m`, the number of these sequences
after which `synchronize_bank` has particle `k` in the new source bank, times `m`,
is `n_s` times the number of all sequences: the fraction is `n_s / m`.  With
`m = i + 1` this is the state after the iteration at index `i`. -/
theorem C4_reservoir_uniform {G : Type} (sample : G → List Nat → Nat × List Nat)
    (source_bank : Bank Nat) (g : G) (N m k : Nat)
    (hs : source_bank.n ≤ source_bank.p.length) (hm : source_bank.n ≤ m) (hN : m ≤ N)
    (hk : k < m) :
    selectedCount sample source_bank g N m k * m
      = source_bank.n * (drawSeqs source_bank.n (m - source_bank.n)).length ∧
    (drawSeqs source_bank.n (m - source_bank.n)).length
      = ∏ i ∈ Finset.Ico source_bank.n m, (i + 1) ∧
    (drawSeqs source_bank.n (m - source_bank.n)).Nodup ∧
    ∀ js, js ∈ drawSeqs source_bank.n (m - source_bank.n) ↔
      js.length = m - source_bank.n ∧ ∀ t v, js[t]? = some v → v ≤ source_bank.n + t := by
  refine ⟨?_, ?_, drawSeqs_nodup _ _, drawSeqs_mem_iff _ _⟩
  · have hge : m ≥ source_bank.n := hm
    have h0 : (memcpy source_bank.p 0 (List.range N) 0 source_bank.n).take source_bank.n
        = List.range source_bank.n := by
      rw [memcpy_eq _ _ _ _ _ (by omega) (by simp; omega)]
      apply List.ext_getElem?
      intro t
      by_cases ht : t < source_bank.n
      · rw [List.getElem?_take_of_lt ht, List.getElem?_append_left (by simp; omega),
          List.getElem?_append_right (by simp), List.getElem?_take_of_lt (by simpa using ht)]
        simp [List.getElem?_range ht, List.getElem?_range (show t < N by omega)]
      · rw [List.getElem?_eq_none (by simp; omega), List.getElem?_eq_none (by simp; omega)]
    have := count_uniform N source_bank.n _ h0 (m - source_bank.n) (by omega) k (by omega)
    rw [Nat.add_sub_cancel' hm] at this
    simpa only [selectedCount, synchronize_bank, labelledBank, if_pos hge] using this
  · have := drawSeqs_length_eq_prod source_bank.n (m - source_bank.n)
    rwa [Nat.add_sub_cancel' hm] at this

/-- C4, witness: a source bank of 2 particles and a fission bank of 4 (in an array of
5 cells): of the 3 * 4 = 12 draw sequences, 6 leave the fission particle of index 3
in the new source bank, the fraction 2 / 4. -/
theorem C4_reservoir_uniform_witness :
    selectedCount (fun (_ : Unit) (w : List Nat) => (0, w)) { p := [9, 9, 9], sz := 3, n := 2 }
      () 5 4 3 = 6 ∧
    (drawSeqs 2 (4 - 2)).length = 12 ∧
    selectedCount (fun (_ : Unit) (w : List Nat) => (0, w)) { p := [9, 9, 9], sz := 3, n := 2 }
      () 5 4 3 * 4 = 2 * (drawSeqs 2 (4 - 2)).length :=
  ⟨by decide, by decide,
    (C4_reservoir_uniform (fun (_ : Unit) (w : List Nat) => (0, w))
      { p := [9, 9, 9], sz := 3, n := 2 } () 5 4 3
      (by decide) (by decide) (by decide) (by decide)).1⟩

/-! ### The grid index -/

theorem mul_add_inj (n a b c d : Nat) (hb : b < n) (hd : d < n)
    (h : a * n + b = c * n + d) : a = c ∧ b = d := by
  have hn : 0 < n := by omega
  have e1 : (a * n + b) / n = a := by
    rw [Nat.add_comm, Nat.add_mul_div_right _ _ hn, Nat.div_eq_of_lt hb, Nat.zero_add]
  have e2 : (c * n + d) / n = c := by
    rw [Nat.add_comm, Nat.add_mul_div_right _ _ hn, Nat.div_eq_of_lt hd, Nat.zero_add]
  have hac : a = c := by rw [← e1, ← e2, h]
  subst hac
  exact ⟨rfl, by omega⟩

theorem flat_index_eq (n ix iy iz : Nat) :
    flat_index n ix iy iz = (ix * n + iy) * n + iz := by
  simp only [flat_index]
  ring

theorem flat_index_lt (n ix iy iz : Nat) (hx : ix < n) (hy : iy < n) (hz : iz < n) :
    flat_index n ix iy iz < n * n * n := by
  rw [flat_index_eq]
  have h1 : ix * n + iy < n * n := by
    calc ix * n + iy < ix * n + n := by omega
      _ = (ix + 1) * n := by ring
      _ ≤ n * n := Nat.mul_le_mul_right n hx
  calc (ix * n + iy) * n + iz < (ix * n + iy) * n + n := by omega
    _ = (ix * n + iy + 1) * n := by ring
    _ ≤ n * n * n := Nat.mul_le_mul_right n h1

/-- Where the grid has fewer than `2^64` cells, the machine computation of the
flattened index does not wrap. -/
theorem flat_index64_eq (n ix iy iz : Nat) (hx : ix < n) (hy : iy < n) (hz : iz < n)
    (hn : n * n * n < 2 ^ 64) : flat_index64 n ix iy iz = flat_index n ix iy iz := by
  have hlt := flat_index_lt n ix iy iz hx hy hz
  have hn1 : 1 ≤ n := by omega
  have a1 : ix * n ≤ ix * n * n := Nat.le_mul_of_pos_right _ hn1
  have a2 : ix * n * n ≤ flat_index n ix iy iz := by simp only [flat_index]; omega
  have a3 : iy * n ≤ flat_index n ix iy iz := by simp only [flat_index]; omega
  have a4 : ix * n * n + iy * n ≤ flat_index n ix iy iz := by simp only [flat_index]; omega
  simp only [flat_index64]
  rw [Nat.mod_eq_of_lt (show ix * n < 2 ^ 64 by omega),
    Nat.mod_eq_of_lt (show ix * n * n < 2 ^ 64 by omega),
    Nat.mod_eq_of_lt (show iy * n < 2 ^ 64 by omega),
    Nat.mod_eq_of_lt (show ix * n * n + iy * n < 2 ^ 64 by omega),
    Nat.mod_eq_of_lt (show ix * n * n + iy * n + iz < 2 ^ 64 by
      have : ix * n * n + iy * n + iz = flat_index n ix iy iz := rfl
      omega)]
  rfl

/-- Over the natural numbers (no wrap): for cell indices `ix`, `iy`, `iz` below the bin
count `n`, the flattened index `ix*n*n + iy*n + iz` is strictly below `n*n*n`, and two
triples of indices below `n` with the same flattened index are equal. -/
theorem flat_index_lt_and_inj (n ix iy iz : Nat) (hx : ix < n) (hy : iy < n)
    (hz : iz < n) :
    flat_index n ix iy iz < n * n * n ∧
    ∀ jx jy jz, jx < n → jy < n → jz < n →
      flat_index n ix iy iz = flat_index n jx jy jz → ix = jx ∧ iy = jy ∧ iz = jz := by
  refine ⟨flat_index_lt n ix iy iz hx hy hz, ?_⟩
  intro jx jy jz hjx hjy hjz h
  rw [flat_index_eq, flat_index_eq] at h
  obtain ⟨h1, h2⟩ := mul_add_inj n _ _ _ _ hz hjz h
  obtain ⟨h3, h4⟩ := mul_add_inj n _ _ _ _ hy hjy h1
  exact ⟨h3, h4, h2⟩

/-! ### The copy of `resize_queue` -/

/-- C17 (evaluation of the code at the failing input): the queue state reached from
`init_queue 4` by three enqueues, three dequeues and three enqueues has `head = 3`,
`n = 3`, `sz = 4`.  The next enqueue grows it (`sz = n + 1`), and `resize_queue` then
copies the 3 cells 0, 1, 2 to the indices 6, 7, 8 of an array of 8 cells:
`head + n + head = 9` exceeds the new capacity `2 * sz = 8`. -/
theorem C17_resize_copy_overruns :
    Reachable 4 overrunState ∧
    overrunState = { p := [some 5, some 6, some 3, some 4], sz := 4, head := 3, n := 3 } ∧
    overrunState.sz = overrunState.n + 1 ∧
    overrunState.head + overrunState.n + overrunState.head = 9 ∧
    2 * overrunState.sz = 8 ∧
    ¬ (overrunState.head + overrunState.n + overrunState.head ≤ 2 * overrunState.sz) :=
  ⟨Reachable.enq _ 6 (Reachable.enq _ 5 (Reachable.enq _ 4
      (Reachable.deq _ (Reachable.deq _ (Reachable.deq _
        (Reachable.enq _ 3 (Reachable.enq _ 2 (Reachable.enq _ 1 Reachable.init)))
        (by decide)) (by decide)) (by decide)))),
    by decide, by decide, by decide, by decide, by decide⟩


/-! ### The batch loop -/

theorem batch_i_a {K : Type} (params : Parameters) (v : K) (i_b : Int) (s : Driver K) :
    (batch params v i_b s).i_a
      = if i_b ≥ params.n_batches - params.n_active then s.i_a + 1 else s.i_a := by
  by_cases h1 : i_b ≥ params.n_batches - params.n_active
  · by_cases h2 : s.i_a + 1 ≥ 0
    · simp only [batch, if_pos h1, if_pos h2]
    · simp only [batch, if_pos h1, if_neg h2]
  · by_cases h2 : s.i_a ≥ 0
    · simp only [batch, if_neg h1, if_pos h2]
    · simp only [batch, if_neg h1, if_neg h2]

theorem batch_tallies_on {K : Type} (params : Parameters) (v : K) (i_b : Int) (s : Driver K) :
    (batch params v i_b s).tallies_on
      = if i_b ≥ params.n_batches - params.n_active ∧ params.tally = TRUE then TRUE
        else s.tallies_on := by
  by_cases h1 : i_b ≥ params.n_batches - params.n_active
  · by_cases h3 : params.tally = TRUE
    · rw [if_pos ⟨h1, h3⟩]
      by_cases h2 : s.i_a + 1 ≥ 0
      · simp only [batch, if_pos h1, if_pos h2, if_pos h3]
      · simp only [batch, if_pos h1, if_neg h2, if_pos h3]
    · rw [if_neg (fun h => h3 h.2)]
      by_cases h2 : s.i_a + 1 ≥ 0
      · simp only [batch, if_pos h1, if_pos h2, if_neg h3]
      · simp only [batch, if_pos h1, if_neg h2, if_neg h3]
  · rw [if_neg (fun h => h1 h.1)]
    by_cases h2 : s.i_a ≥ 0
    · simp only [batch, if_neg h1, if_pos h2]
    · simp only [batch, if_neg h1, if_neg h2]

/-- The state of the batch loop after `k` batches, when the active window is the last
`n_active` of the `n_batches` batches. -/
theorem run_batches_state {K : Type} (F : FloatOps K) (params : Parameters) (kb : Int → K)
    (h1 : params.n_active ≤ params.n_batches) :
    ∀ k : Nat, (k : Int) ≤ params.n_batches →
      (run_batches F params kb k).i_a
        = max ((k : Int) - (params.n_batches - params.n_active)) 0 - 1 ∧
      (run_batches F params kb k).writes
        = (List.range ((k : Int) - (params.n_batches - params.n_active)).toNat).map
            (fun (i : Nat) => (params.n_batches - params.n_active + (i : Int), (i : Int))) ∧
      (run_batches F params kb k).keff.length = params.n_active.toNat := by
  intro k
  induction k with
  | zero =>
    intro _
    have e : ((0 : Nat) : Int) - (params.n_batches - params.n_active) ≤ 0 := by omega
    refine ⟨?_, ?_, ?_⟩
    · rw [max_eq_right e]; rfl
    · rw [Int.toNat_eq_zero.2 e]; rfl
    · simp only [run_batches, init_driver, List.length_replicate]
  | succ k ih =>
    intro hk
    obtain ⟨hi, hw, hl⟩ := ih (by omega)
    simp only [run_batches]
    generalize run_batches F params kb k = s at hi hw hl
    by_cases hact : (k : Int) ≥ params.n_batches - params.n_active
    · have hia : s.i_a + 1 = (k : Int) - (params.n_batches - params.n_active) := by
        rw [hi, max_eq_left (by omega)]; omega
      have hge : s.i_a + 1 ≥ 0 := by omega
      have hm : (((k + 1 : Nat) : Int) - (params.n_batches - params.n_active)).toNat
          = ((k : Int) - (params.n_batches - params.n_active)).toNat + 1 := by omega
      have hcast : (((k : Int) - (params.n_batches - params.n_active)).toNat : Int)
          = (k : Int) - (params.n_batches - params.n_active) := Int.toNat_of_nonneg (by omega)
      simp only [batch, if_pos hact, if_pos hge, List.length_set]
      refine ⟨?_, ?_, hl⟩
      · rw [hia, max_eq_left (by omega)]; omega
      · rw [hm, List.range_succ, List.map_append, hw, hia]
        simp only [List.map_cons, List.map_nil, hcast]
        congr 3
        omega
    · have hia : s.i_a = -1 := by
        rw [hi, max_eq_right (by omega)]; omega
      have hlt : ¬ s.i_a ≥ 0 := by omega
      have e : (((k + 1 : Nat) : Int) - (params.n_batches - params.n_active)) ≤ 0 := by omega
      have e1 : ((k : Int) - (params.n_batches - params.n_active)) ≤ 0 := by omega
      simp only [batch, if_neg hact, if_neg hlt]
      refine ⟨?_, ?_, hl⟩
      · rw [hia, max_eq_right e]; rfl
      · rw [hw, Int.toNat_eq_zero.2 e, Int.toNat_eq_zero.2 e1]

theorem run_batches_tallies_on {K : Type} (F : FloatOps K) (params : Parameters)
    (kb : Int → K) : ∀ k : Nat,
      (run_batches F params kb k).tallies_on
        = if params.tally = TRUE ∧ 0 < k ∧ (k : Int) - 1 ≥ params.n_batches - params.n_active
          then TRUE else FALSE := by
  intro k
  induction k with
  | zero => simp [run_batches, init_driver]
  | succ k ih =>
    simp only [run_batches, batch_tallies_on, ih]
    by_cases ht : params.tally = TRUE
    · by_cases hact : (k : Int) ≥ params.n_batches - params.n_active
      · rw [if_pos ⟨hact, ht⟩, if_pos ⟨ht, by omega, by omega⟩]
      · rw [if_neg (fun h => hact h.1), if_neg (fun h => hact (by omega)),
          if_neg (fun h => hact (by omega))]
    · rw [if_neg (fun h => ht h.2), if_neg (fun h => ht h.1), if_neg (fun h => ht h.1)]

/-- C15: let `0 ≤ n_active ≤ n_batches`.  A batch increments the active index `i_a`
exactly when `i_b ≥ n_batches - n_active`.  After any number of batches `i_a` lies
between `-1` and `n_active - 1` and `keff` has `n_active` entries; every store
`keff[i_a] = keff_batch` done so far is at an index `0 ≤ i_a < n_active` and in the
batch `n_batches - n_active + i_a`, so none is in an inactive batch; and over the
whole loop the stores are, in order, exactly one for each entry `i < n_active`, in
batch `n_batches - n_active + i`. -/
theorem C15_active_window {K : Type} (F : FloatOps K) (params : Parameters) (kb : Int → K)
    (h0 : 0 ≤ params.n_active) (h1 : params.n_active ≤ params.n_batches) :
    (∀ (s : Driver K) (v : K) (i_b : Int),
      (batch params v i_b s).i_a
        = if i_b ≥ params.n_batches - params.n_active then s.i_a + 1 else s.i_a) ∧
    (∀ k : Nat, (k : Int) ≤ params.n_batches →
      -1 ≤ (run_batches F params kb k).i_a ∧
      (run_batches F params kb k).i_a ≤ params.n_active - 1 ∧
      (run_batches F params kb k).keff.length = params.n_active.toNat ∧
      ∀ w ∈ (run_batches F params kb k).writes,
        0 ≤ w.2 ∧ w.2 < params.n_active ∧ w.1 = params.n_batches - params.n_active + w.2) ∧
    (main_loop F params kb).writes
      = (List.range params.n_active.toNat).map
          (fun (i : Nat) => (params.n_batches - params.n_active + (i : Int), (i : Int))) := by
  refine ⟨fun s v i_b => batch_i_a params v i_b s, ?_, ?_⟩
  · intro k hk
    obtain ⟨hi, hw, hl⟩ := run_batches_state F params kb h1 k hk
    refine ⟨?_, ?_, hl, ?_⟩
    · rw [hi]
      have := le_max_right ((k : Int) - (params.n_batches - params.n_active)) 0
      omega
    · rw [hi]
      have : max ((k : Int) - (params.n_batches - params.n_active)) 0 ≤ params.n_active :=
        max_le (by omega) h0
      omega
    · intro w hwm
      rw [hw, List.mem_map] at hwm
      obtain ⟨i, hir, rfl⟩ := hwm
      have := List.mem_range.1 hir
      refine ⟨by simp, ?_, rfl⟩
      show (i : Int) < params.n_active
      omega
  · have hn : ((params.n_batches.toNat : Nat) : Int) = params.n_batches :=
      Int.toNat_of_nonneg (by omega)
    obtain ⟨_, hw, _⟩ := run_batches_state F params kb h1 params.n_batches.toNat (by omega)
    rw [main_loop, hw, hn]
    congr 2
    omega

/-- C15, witness: 5 batches of which the last 2 are active; the stores are `keff[0]`
in batch 3 and `keff[1]` in batch 4. -/
theorem C15_active_window_witness :
    main_loop intOps { n_batches := 5, n_active := 2, tally := 1, n_bins := 2 }
        (fun i => i * 10)
      = { i_a := 1, tallies_on := 1, keff := [30, 40], writes := [(3, 0), (4, 1)] } ∧
    (main_loop intOps { n_batches := 5, n_active := 2, tally := 1, n_bins := 2 }
        (fun i => i * 10)).writes
      = (List.range (2 : Int).toNat).map (fun (i : Nat) => ((5 : Int) - 2 + (i : Int), (i : Int))) :=
  ⟨by decide,
    (C15_active_window intOps { n_batches := 5, n_active := 2, tally := 1, n_bins := 2 }
      (fun i => i * 10) (by decide) (by decide)).2.2⟩

/-- C16: after any number `k` of batches, `tallies_on` is `TRUE` exactly when
`params->tally` is `TRUE` and one of the batches run so far was active (the last one,
of index `k - 1`, is at or after `n_batches - n_active`), and it is `FALSE` otherwise.
Hence a batch never changes it from `TRUE`; it is `FALSE` up to and including every
batch before the active window; and at an active batch it is `TRUE` if and only if
`params->tally` is `TRUE`. -/
theorem C16_tallies_on_never_reset {K : Type} (F : FloatOps K) (params : Parameters)
    (kb : Int → K) :
    (∀ k : Nat, (run_batches F params kb k).tallies_on
      = if params.tally = TRUE ∧ 0 < k ∧ (k : Int) - 1 ≥ params.n_batches - params.n_active
        then TRUE else FALSE) ∧
    (∀ (s : Driver K) (v : K) (i_b : Int),
      s.tallies_on = TRUE → (batch params v i_b s).tallies_on = TRUE) ∧
    (∀ k : Nat, (k : Int) < params.n_batches - params.n_active →
      (run_batches F params kb (k + 1)).tallies_on = FALSE) ∧
    (∀ k : Nat, (k : Int) ≥ params.n_batches - params.n_active →
      ((run_batches F params kb (k + 1)).tallies_on = TRUE ↔ params.tally = TRUE)) := by
  refine ⟨run_batches_tallies_on F params kb, ?_, ?_, ?_⟩
  · intro s v i_b hs
    rw [batch_tallies_on]
    split
    · rfl
    · exact hs
  · intro k hk
    rw [run_batches_tallies_on, if_neg]
    intro h
    have := h.2.2
    push_cast at this
    omega
  · intro k hk
    rw [run_batches_tallies_on]
    constructor
    · intro h
      by_contra hne
      rw [if_neg (fun hc => hne hc.1)] at h
      exact absurd h (by decide)
    · intro ht
      rw [if_pos ⟨ht, by omega, by push_cast; omega⟩]


/-! ### The occupancy array -/

theorem incr_getElem? (count : List Nat) (i j : Nat) :
    (incr count i)[j]? = if i = j then (count[j]?).map (· + 1) else count[j]? := by
  simp only [incr, List.getElem?_set]
  by_cases h : i = j
  · subst h
    by_cases hl : i < count.length
    · simp [hl, List.getD_eq_getElem?_getD, List.getElem?_eq_getElem hl]
    · simp [hl, List.getElem?_eq_none (show count.length ≤ i by omega)]
  · simp [h]

theorem incr_comm (count : List Nat) (i j : Nat) :
    incr (incr count i) j = incr (incr count j) i := by
  apply List.ext_getElem?
  intro t
  simp only [incr_getElem?]
  by_cases h1 : i = t <;> by_cases h2 : j = t <;> simp [h1, h2]

theorem fold_incr_same {α : Type} (f : α → Nat) (idx : Nat) (l : List α) (count : List Nat)
    (h : ∀ q ∈ l, f q = idx) (j : Nat) :
    (l.foldl (fun c q => incr c (f q)) count)[j]?
      = if idx = j then (count[j]?).map (· + l.length) else count[j]? := by
  induction l generalizing count with
  | nil => simp
  | cons q l ih =>
    rw [List.foldl_cons, ih _ (fun r hr => h r (List.mem_cons_of_mem _ hr)),
      h q (List.mem_cons_self _ _), incr_getElem?]
    by_cases hj : idx = j
    · simp only [if_pos hj, List.length_cons, Option.map_map]
      congr 1
      funext c
      simp only [Function.comp]
      omega
    · simp only [if_neg hj]

theorem entropy_fold_zeros {K : Type} (F : FloatOps K) (N k : Nat) (H : K) :
    (List.replicate k 0).foldl (fun H c =>
      if c > 0 then
        F.sub H (F.mul (F.div (F.ofNat c) (F.ofNat N)) (F.log2 (F.div (F.ofNat c) (F.ofNat N))))
      else H) H = H := by
  induction k with
  | zero => rfl
  | succ k ih =>
    rw [List.replicate_succ, List.foldl_cons, if_neg (by decide), ih]

/-- The occupancy array when every particle falls in the cell of flattened index
`idx`: the population in that cell, zero elsewhere. -/
theorem fold_incr_single {α : Type} (f : α → Nat) (idx M : Nat) (l : List α)
    (h : ∀ q ∈ l, f q = idx) (hi : idx < M) :
    l.foldl (fun c q => incr c (f q)) (List.replicate M 0)
      = List.replicate idx 0 ++ l.length :: List.replicate (M - idx - 1) 0 := by
  apply List.ext_getElem?
  intro j
  rw [fold_incr_same f idx l _ h j]
  by_cases h1 : j < idx
  · rw [if_neg (by omega), List.getElem?_append_left (by simp; omega)]
    simp [List.getElem?_replicate, h1, show j < M by omega]
  · by_cases h2 : j = idx
    · subst h2
      rw [if_pos rfl, List.getElem?_append_right (by simp)]
      simp [List.getElem?_replicate, hi]
    · rw [if_neg (by omega), List.getElem?_append_right (by simp; omega)]
      have e : j - (List.replicate idx 0).length = (j - idx - 1) + 1 := by
        simp; omega
      rw [e, List.getElem?_cons_succ]
      simp only [List.getElem?_replicate]
      by_cases h3 : j < M
      · rw [if_pos h3, if_pos (by omega)]
      · rw [if_neg h3, if_neg (by omega)]

/-! ### Claims on `shannon_entropy` -/

/-- C12: let the bank hold at least one particle and let all its particles have the
same cell indices, each below the bin count `n`.  If the `double` arithmetic satisfies
`x / x = 1.0` for the image `x` of a positive count, `log2(1.0) = 0.0`,
`1.0 * 0.0 = 0.0` and `0.0 - 0.0 = 0.0`, then `shannon_entropy` returns `0.0`. -/
theorem C12_single_cell_entropy_zero {K : Type} (F : FloatOps K) (g : Geometry K)
    (b : Bank (Particle K)) (params : Parameters) (ix iy iz : Nat)
    (hN : 0 < b.n) (hb : b.n ≤ b.p.length)
    (hx : ix < params.n_bins) (hy : iy < params.n_bins) (hz : iz < params.n_bins)
    (hcell : ∀ q ∈ b.p.take b.n, cell_of F g params.n_bins q = (ix, iy, iz))
    (hdiv : ∀ c : Nat, 0 < c → F.div (F.ofNat c) (F.ofNat c) = F.ofNat 1)
    (hlog : F.log2 (F.ofNat 1) = F.zero)
    (hmul : F.mul (F.ofNat 1) F.zero = F.zero)
    (hsub : F.sub F.zero F.zero = F.zero) :
    shannon_entropy F g b params = F.zero := by
  have hidx : ∀ q ∈ b.p.take b.n,
      cell_index F g params.n_bins q = flat_index params.n_bins ix iy iz := by
    intro q hq
    simp only [cell_index, hcell q hq]
  have hlen : (b.p.take b.n).length = b.n := by
    rw [List.length_take]; omega
  simp only [shannon_entropy, bin_counts]
  rw [fold_incr_single _ _ _ _ hidx (flat_index_lt _ _ _ _ hx hy hz), hlen]
  simp only [entropy_sum, List.foldl_append, List.foldl_cons, entropy_fold_zeros,
    if_pos hN, hdiv b.n hN, hlog, hmul, hsub]

/-- C12, witness: two particles in the first cell of a grid of 2 bins per axis, in the
integer arithmetic `intOps`. -/
theorem C12_single_cell_entropy_zero_witness :
    bin_counts intOps { x := 10, y := 10, z := 10 }
      { p := [{ x := 1, y := 2, z := 3 }, { x := 2, y := 2, z := 3 }], sz := 2, n := 2 } 2
      = [2, 0, 0, 0, 0, 0, 0, 0] ∧
    shannon_entropy intOps { x := 10, y := 10, z := 10 }
      { p := [{ x := 1, y := 2, z := 3 }, { x := 2, y := 2, z := 3 }], sz := 2, n := 2 }
      { n_batches := 1, n_active := 1, tally := 0, n_bins := 2 } = intOps.zero :=
  ⟨by decide,
    C12_single_cell_entropy_zero intOps { x := 10, y := 10, z := 10 }
      { p := [{ x := 1, y := 2, z := 3 }, { x := 2, y := 2, z := 3 }], sz := 2, n := 2 }
      { n_batches := 1, n_active := 1, tally := 0, n_bins := 2 } 0 0 0
      (by decide) (by decide) (by decide) (by decide) (by decide) (by decide)
      (fun c hc => Int.ediv_self (by
        show (c : Int) ≠ 0
        omega))
      (by decide) (by decide) (by decide)⟩

/-- C14: if the bank `b'` holds the particles of the bank `b` in another order (same
`n`, and the first `n` particles of the one are a permutation of those of the other),
the occupancy arrays built by `shannon_entropy` for `b'` and `b` are identical, and so
are the returned entropies, whatever the `double` arithmetic. -/
theorem C14_entropy_permutation_invariant {K : Type} (F : FloatOps K) (g : Geometry K)
    (b b' : Bank (Particle K)) (params : Parameters) (hn : b'.n = b.n)
    (hp : (b'.p.take b'.n).Perm (b.p.take b.n)) :
    bin_counts F g b' params.n_bins = bin_counts F g b params.n_bins ∧
    shannon_entropy F g b' params = shannon_entropy F g b params := by
  have hc : bin_counts F g b' params.n_bins = bin_counts F g b params.n_bins := by
    simp only [bin_counts]
    exact hp.foldl_eq' (fun x _ y _ z => incr_comm z _ _) _
  exact ⟨hc, by simp only [shannon_entropy, hc, hn]⟩

/-- C14, witness: three particles and a rotation of them. -/
theorem C14_entropy_permutation_invariant_witness :
    bin_counts intOps { x := 10, y := 10, z := 10 }
      { p := [{ x := 1, y := 7, z := 9 }, { x := 1, y := 2, z := 3 }, { x := 6, y := 2, z := 3 }],
        sz := 3, n := 3 } 2 = [1, 0, 0, 1, 1, 0, 0, 0] ∧
    bin_counts intOps { x := 10, y := 10, z := 10 }
      { p := [{ x := 1, y := 7, z := 9 }, { x := 1, y := 2, z := 3 }, { x := 6, y := 2, z := 3 }],
        sz := 3, n := 3 } 2
      = bin_counts intOps { x := 10, y := 10, z := 10 }
        { p := [{ x := 1, y := 2, z := 3 }, { x := 6, y := 2, z := 3 }, { x := 1, y := 7, z := 9 }],
          sz := 3, n := 3 } 2 :=
  ⟨by decide,
    (C14_entropy_permutation_invariant intOps { x := 10, y := 10, z := 10 }
      { p := [{ x := 1, y := 2, z := 3 }, { x := 6, y := 2, z := 3 }, { x := 1, y := 7, z := 9 }],
        sz := 3, n := 3 }
      { p := [{ x := 1, y := 7, z := 9 }, { x := 1, y := 2, z := 3 }, { x := 6, y := 2, z := 3 }],
        sz := 3, n := 3 }
      { n_batches := 1, n_active := 1, tally := 0, n_bins := 2 } (by decide) (by decide)).1⟩

theorem reservoir_loop_length {α W : Type} (rand : W → Nat × W) (fp : List α) (n_s : Nat)
    (cnt : Nat) : ∀ (i : Nat) (sp : List α) (w : W),
      (reservoir_loop rand fp n_s cnt i sp w).1.length = sp.length := by
  induction cnt with
  | zero => intro i sp w; rfl
  | succ cnt ih =>
    intro i sp w
    simp only [reservoir_loop]
    rw [ih]
    split
    · rw [memcpy_length]
    · rfl

/-- The first copy of the resampling branch overwrites the first `n` slots. -/
theorem memcpy_take_front {β : Type} (dst src : List β) (n : Nat) (hd : n ≤ dst.length)
    (hs : n ≤ src.length) : (memcpy dst 0 src 0 n).take n = src.take n := by
  apply List.ext_getElem?
  intro t
  by_cases ht : t < n
  · rw [List.getElem?_take_of_lt ht, List.getElem?_take_of_lt ht, memcpy_getElem?,
      if_pos (by omega), Nat.zero_add, Nat.sub_zero]
  · rw [List.getElem?_eq_none (by simp; omega), List.getElem?_eq_none (by simp; omega)]

/-- The replacement loop reads the source array only through its first `n_s` slots. -/
theorem reservoir_loop_congr {α W : Type} (rand : W → Nat × W) (fp : List α) (n_s : Nat)
    (cnt : Nat) : ∀ (i : Nat) (sp sp' : List α) (w : W), sp.take n_s = sp'.take n_s →
      (reservoir_loop rand fp n_s cnt i sp w).1.take n_s
        = (reservoir_loop rand fp n_s cnt i sp' w).1.take n_s ∧
      (reservoir_loop rand fp n_s cnt i sp w).2 = (reservoir_loop rand fp n_s cnt i sp' w).2 := by
  induction cnt with
  | zero => intro i sp sp' w h; exact ⟨h, rfl⟩
  | succ cnt ih =>
    intro i sp sp' w h
    simp only [reservoir_loop]
    apply ih
    by_cases hj : (rand w).1 % (i + 1) < n_s
    · rw [if_pos hj, if_pos hj]
      simp only [memcpy, Nat.add_zero]
      split
      · rw [List.set_take, List.set_take, h]
      · exact h
    · rw [if_neg hj, if_neg hj]
      exact h

theorem sample_loop_state {α G W : Type} (sample : G → W → α × W) (g : G) (cnt : Nat) :
    ∀ (i : Nat) (sp sp' : List α) (w : W),
      (sample_loop sample g cnt i sp w).2 = (sample_loop sample g cnt i sp' w).2 := by
  induction cnt with
  | zero => intro i sp sp' w; rfl
  | succ cnt ih =>
    intro i sp sp' w
    simp only [sample_loop]
    exact ih _ _ _ _

theorem sample_loop_length {α G W : Type} (sample : G → W → α × W) (g : G) (cnt : Nat) :
    ∀ (i : Nat) (sp : List α) (w : W),
      (sample_loop sample g cnt i sp w).1.length = sp.length := by
  induction cnt with
  | zero => intro i sp w; rfl
  | succ cnt ih =>
    intro i sp w
    simp only [sample_loop]
    rw [ih, List.length_set]

/-- The live part of the source array after the refill branch (`n_f < n_s`). -/
theorem refill_take {α G W : Type} (sample : G → W → α × W) (g : G) (sp fp : List α)
    (n_s n_f : Nat) (w : W) (hlt : n_f < n_s) (hs : n_s ≤ sp.length) (hf : n_f ≤ fp.length) :
    (memcpy (sample_loop sample g (n_s - n_f) 0 sp w).1 (n_s - n_f) fp 0 n_f).take n_s
      = samples sample g (n_s - n_f) w ++ fp.take n_f := by
  apply List.ext_getElem?
  intro t
  have hl : (sample_loop sample g (n_s - n_f) 0 sp w).1
      = samples sample g (n_s - n_f) w ++ sp.drop (n_s - n_f) := by
    rw [sample_loop_eq _ _ _ _ _ _ (by omega)]
    simp
  have hslen := samples_length sample g (n_s - n_f) w
  by_cases ht : t < n_s
  · rw [List.getElem?_take_of_lt ht, memcpy_getElem?, sample_loop_length]
    by_cases h1 : t < n_s - n_f
    · rw [if_neg (by omega), hl, List.getElem?_append_left (by omega),
        List.getElem?_append_left (by omega)]
    · rw [if_pos (by omega), List.getElem?_append_right (by omega), hslen,
        List.getElem?_take_of_lt (by omega), Nat.zero_add]
  · rw [List.getElem?_eq_none (by simp; omega),
      List.getElem?_eq_none (by simp [hslen]; omega)]

/-- C20: two source banks with the same `n` (each at most the length of its array),
synchronised with the same fission bank, geometry and generator state, end with the
same `n`, the same particles in their `n` slots, the same fission bank and the same
generator state; and if moreover their arrays have exactly `n` cells and their `sz`
agree, the two resulting source banks are equal records. -/
theorem C20_sync_independent_of_old_source {α G W : Type} (rand : W → Nat × W)
    (sample : G → W → α × W) (s1 s2 fission_bank : Bank α) (g : G) (w : W)
    (hn : s1.n = s2.n) (h1 : s1.n ≤ s1.p.length) (h2 : s2.n ≤ s2.p.length)
    (hf : fission_bank.n ≤ fission_bank.p.length) :
    (synchronize_bank rand sample s1 fission_bank g w).1.n
      = (synchronize_bank rand sample s2 fission_bank g w).1.n ∧
    (synchronize_bank rand sample s1 fission_bank g w).1.p.take s1.n
      = (synchronize_bank rand sample s2 fission_bank g w).1.p.take s2.n ∧
    (synchronize_bank rand sample s1 fission_bank g w).2
      = (synchronize_bank rand sample s2 fission_bank g w).2 ∧
    (s1.sz = s2.sz → s1.p.length = s1.n → s2.p.length = s2.n →
      (synchronize_bank rand sample s1 fission_bank g w).1
        = (synchronize_bank rand sample s2 fission_bank g w).1) := by
  have hlen : ∀ s : Bank α,
      (synchronize_bank rand sample s fission_bank g w).1.p.length = s.p.length := by
    intro s
    simp only [synchronize_bank]
    split
    · simp only [reservoir_loop_length, memcpy_length]
    · simp only [memcpy_length, sample_loop_length]
  have hcore : (synchronize_bank rand sample s1 fission_bank g w).1.p.take s1.n
        = (synchronize_bank rand sample s2 fission_bank g w).1.p.take s2.n ∧
      (synchronize_bank rand sample s1 fission_bank g w).2
        = (synchronize_bank rand sample s2 fission_bank g w).2 := by
    by_cases hge : fission_bank.n ≥ s1.n
    · have hge2 : fission_bank.n ≥ s2.n := by omega
      have h0 : (memcpy s1.p 0 fission_bank.p 0 s1.n).take s1.n
          = (memcpy s2.p 0 fission_bank.p 0 s1.n).take s1.n := by
        rw [memcpy_take_front _ _ _ (by omega) (by omega),
          memcpy_take_front _ _ _ (by omega) (by omega)]
      obtain ⟨e1, e2⟩ := reservoir_loop_congr rand fission_bank.p s1.n
        (fission_bank.n - s1.n) s1.n _ _ w h0
      simp only [synchronize_bank, if_pos hge, if_pos hge2, ← hn]
      exact ⟨e1, by rw [e2]⟩
    · have hge2 : ¬ fission_bank.n ≥ s2.n := by omega
      simp only [synchronize_bank, if_neg hge, if_neg hge2, ← hn]
      refine ⟨?_, ?_⟩
      · rw [refill_take sample g s1.p fission_bank.p s1.n fission_bank.n w (by omega) h1 hf,
          refill_take sample g s2.p fission_bank.p s1.n fission_bank.n w (by omega)
            (by omega) hf]
      · rw [sample_loop_state sample g _ 0 s1.p s2.p w]
  have hnn : (synchronize_bank rand sample s1 fission_bank g w).1.n
      = (synchronize_bank rand sample s2 fission_bank g w).1.n := by
    simp only [synchronize_bank]
    split <;> split <;> exact hn
  refine ⟨hnn, hcore.1, hcore.2, ?_⟩
  intro hsz hl1 hl2
  have hp := hcore.1
  rw [List.take_of_length_le (by rw [hlen]; omega),
    List.take_of_length_le (by rw [hlen]; omega)] at hp
  have hszz : (synchronize_bank rand sample s1 fission_bank g w).1.sz
      = (synchronize_bank rand sample s2 fission_bank g w).1.sz := by
    simp only [synchronize_bank]
    split <;> split <;> exact hsz
  cases hA : (synchronize_bank rand sample s1 fission_bank g w).1
  cases hB : (synchronize_bank rand sample s2 fission_bank g w).1
  rw [hA, hB] at hp hszz hnn
  simp only at hp hszz hnn
  rw [hp, hszz, hnn]

/-- C20, witness: two source banks of 2 particles with different contents, the same
fission bank of 4 particles and the same draws. -/
theorem C20_sync_independent_of_old_source_witness :
    (synchronize_bank nextDraw (fun (_ : Unit) (w : List Nat) => (0, w))
      { p := [7, 8], sz := 2, n := 2 } { p := [10, 11, 12, 13], sz := 4, n := 4 } ()
      [0, 3]).1 = { p := [12, 11], sz := 2, n := 2 } ∧
    (synchronize_bank nextDraw (fun (_ : Unit) (w : List Nat) => (0, w))
      { p := [7, 8], sz := 2, n := 2 } { p := [10, 11, 12, 13], sz := 4, n := 4 } ()
      [0, 3]).1
      = (synchronize_bank nextDraw (fun (_ : Unit) (w : List Nat) => (0, w))
        { p := [5, 6], sz := 2, n := 2 } { p := [10, 11, 12, 13], sz := 4, n := 4 } ()
        [0, 3]).1 :=
  ⟨by decide,
    (C20_sync_independent_of_old_source nextDraw (fun (_ : Unit) (w : List Nat) => (0, w))
      { p := [7, 8], sz := 2, n := 2 } { p := [5, 6], sz := 2, n := 2 }
      { p := [10, 11, 12, 13], sz := 4, n := 4 } () [0, 3]
      (by decide) (by decide) (by decide) (by decide)).2.2.2 (by decide) (by decide) (by decide)⟩


/-! ### `enqueue` where the copy of `resize_queue` leaves the block -/

/-- Where the copy of a growth stays inside the reallocated block (`2*head ≤ sz + 1`
when `n + 1 = sz`; always, when the queue does not grow), the C call is defined and
does what `enqueue_model_spec` says. -/
theorem enqueue_checked_spec {α : Type} (q : Queue α) (x : α) (hsz : 1 ≤ q.sz)
    (hlen : q.p.length = q.sz) (hin : q.n + 1 = q.sz → 2 * q.head ≤ q.sz + 1) :
    enqueue_checked q x = some (enqueue q x) ∧
    ((enqueue q x).sz ≠ q.sz ↔ q.n + 1 = q.sz) ∧
    (q.n + 1 = q.sz → (enqueue q x).sz = 2 * q.sz ∧ (enqueue q x).p.length = 2 * q.sz) ∧
    (q.n + 1 ≠ q.sz → (enqueue q x).sz = q.sz ∧ (enqueue q x).p.length = q.sz) ∧
    (enqueue q x).p[(q.head + q.n) % (enqueue q x).sz]? = some (some x) ∧
    (enqueue q x).n = q.n + 1 ∧
    (enqueue q x).head = q.head := by
  refine ⟨?_, enqueue_model_spec q x hsz hlen⟩
  simp only [enqueue_checked]
  rw [if_neg]
  rintro ⟨h1, h2⟩
  have := hin h1.symm
  omega

/-- C8 (evaluation of the code at the failing input): the queue `overrunState`
(`sz = 4`, array of 4 cells, `head = 3`, `n = 3`) satisfies the condition of the claim,
`sz ≥ 1`.  The enqueue on it grows the queue (`sz = n + 1`), and the copy of
`resize_queue` needs the cells up to index `head + n + head - 1 = 8` of a block of
`2 * sz = 8` cells: the call writes past the end of the block and has no defined
result, where the claim has it store the particle and leave a queue of capacity 8. -/
theorem C8_enqueue_undefined_at_wrapped_growth :
    1 ≤ overrunState.sz ∧ overrunState.p.length = overrunState.sz ∧
    overrunState.sz = overrunState.n + 1 ∧
    2 * overrunState.sz < overrunState.head + overrunState.n + overrunState.head ∧
    enqueue_checked overrunState 7 = none := by
  decide

/-! ### The grid index in machine arithmetic -/

theorem cell_count64_eq (n : Nat) (hn : n * n * n < 2 ^ 64) : cell_count64 n = n * n * n := by
  simp only [cell_count64]
  rcases Nat.eq_zero_or_pos n with h0 | hpos
  · subst h0; rfl
  · have h1 : n * n ≤ n * n * n := Nat.le_mul_of_pos_right _ hpos
    rw [Nat.mod_eq_of_lt (show n * n < 2 ^ 64 by omega), Nat.mod_eq_of_lt hn]

/-- C18 (counterexample): the claim fails for the index and the cell count as the code
computes them, in `unsigned long`.  For the bin count `n = 2^22` the cell count
`n*n*n = 2^66` wraps to 0, so the index 0 of the cell `(0, 0, 0)` is not below it, and
the cells `(2^20, 0, 0)` and `(0, 0, 0)` have the same flattened index 0. -/
theorem C18_index_wraps_for_large_bin_count :
    cell_count64 4194304 = 0 ∧
    flat_index64 4194304 1048576 0 0 = flat_index64 4194304 0 0 0 ∧
    ¬ (∀ n ix iy iz : Nat, ix < n → iy < n → iz < n →
        flat_index64 n ix iy iz < cell_count64 n ∧
        ∀ jx jy jz : Nat, jx < n → jy < n → jz < n →
          flat_index64 n ix iy iz = flat_index64 n jx jy jz → ix = jx ∧ iy = jy ∧ iz = jz) := by
  refine ⟨by decide, by decide, ?_⟩
  intro h
  have h1 := (h 4194304 0 0 0 (by decide) (by decide) (by decide)).1
  revert h1
  decide

/-- C18 (amended): for a bin count `n` whose cell count `n*n*n` is below `2^64`, and
cell indices `ix`, `iy`, `iz` below `n` (so `n ≥ 1`), the machine computations do not
wrap: the cell count is `n*n*n`, the flattened index is `ix*n*n + iy*n + iz`, it is
strictly below the cell count (the access to the occupancy array is in bounds), and
two triples of indices below `n` with the same flattened index are equal. -/
theorem C18_flat_index64_in_bounds_injective (n ix iy iz : Nat) (hn : n * n * n < 2 ^ 64)
    (hx : ix < n) (hy : iy < n) (hz : iz < n) :
    cell_count64 n = n * n * n ∧
    flat_index64 n ix iy iz = ix * n * n + iy * n + iz ∧
    flat_index64 n ix iy iz < cell_count64 n ∧
    ∀ jx jy jz, jx < n → jy < n → jz < n →
      flat_index64 n ix iy iz = flat_index64 n jx jy jz → ix = jx ∧ iy = jy ∧ iz = jz := by
  have e := flat_index64_eq n ix iy iz hx hy hz hn
  refine ⟨cell_count64_eq n hn, e, ?_, ?_⟩
  · rw [e, cell_count64_eq n hn]
    exact flat_index_lt n ix iy iz hx hy hz
  · intro jx jy jz hjx hjy hjz h
    rw [e, flat_index64_eq n jx jy jz hjx hjy hjz hn] at h
    exact (flat_index_lt_and_inj n ix iy iz hx hy hz).2 jx jy jz hjx hjy hjz h

/-- C18 (amended), witness: the last cell of a grid of 3 bins per axis has the
flattened index 26, below the cell count 27. -/
theorem C18_flat_index64_in_bounds_injective_witness :
    3 * 3 * 3 < 2 ^ 64 ∧ cell_count64 3 = 27 ∧ flat_index64 3 2 2 2 = 26 ∧
    (cell_count64 3 = 3 * 3 * 3 ∧
      flat_index64 3 2 2 2 = 2 * 3 * 3 + 2 * 3 + 2 ∧
      flat_index64 3 2 2 2 < cell_count64 3 ∧
      ∀ jx jy jz, jx < 3 → jy < 3 → jz < 3 →
        flat_index64 3 2 2 2 = flat_index64 3 jx jy jz → 2 = jx ∧ 2 = jy ∧ 2 = jz) :=
  ⟨by decide, by decide, by decide,
    C18_flat_index64_in_bounds_injective 3 2 2 2 (by decide) (by decide) (by decide)
      (by decide)⟩

/-! ### `calculate_keff` on one sample -/

end SimpleMC
